import Mathlib

/-
Verification of the suspension-travel pipeline (`sus` repository).

The development shallowly embeds the Python sources under `src/backend/`:
pure numeric code becomes functions over `ℚ` (exact rational arithmetic in
place of IEEE floats) or over `ℝ` where the source takes square roots
(vector norms), stateful orchestration (the `Runner`) becomes explicit
state passing over an association-list workspace and cache, and fallible
code returns `Except`.  Each embedded definition carries a comment naming
the Python function it mirrors.
-/

set_option maxRecDepth 100000
set_option synthInstance.maxHeartbeats 1000000
set_option synthInstance.maxSize 2048

namespace Sus

/-! ## Shared list numerics

`numpy` reductions used throughout the sources, specialised to the exact
types the embedding uses.  Empty-list behaviour: `np.mean([])` is NaN and
Python's `max([])` raises; the embedding totalises them (`mean [] = 0`,
`listMax [] = 0`) and every theorem that depends on a window being
nonempty carries an explicit length hypothesis instead. -/

/-- `np.mean(xs)` for a 1-D array, in exact arithmetic. -/
def mean (xs : List ℚ) : ℚ := xs.sum / (xs.length : ℚ)

/-- Python `max(xs)` over a nonempty sequence (defaulted to `0` on `[]`). -/
def listMax (xs : List ℚ) : ℚ := (xs.max?).getD 0

/-- `np.cumsum(xs)`: partial sums, same length as `xs`. -/
def cumsum (xs : List ℚ) : List ℚ := (xs.scanl (· + ·) 0).tail

/-! ## Data model (`src/backend/classes/time_series.py`)

Python `meta` dictionaries hold heterogeneous auxiliary values; the
embedding gives them a small closed value type. -/

/-- Values stored in a `TimeSeries.meta` mapping. -/
inductive MetaVal where
  | b (v : Bool)
  | q (v : ℚ)
  | s (v : String)
  | pair (i j : ℕ)
deriving DecidableEq, Repr

/-- Python `dict` of metadata, as an insertion-ordered association list. -/
abbrev Meta := List (String × MetaVal)

/-- Python `{**m, k: v}`: update `k` in place if present, else append. -/
def metaSet (m : Meta) (k : String) (v : MetaVal) : Meta :=
  if (m.map Prod.fst).contains k then
    m.map (fun p => if p.1 = k then (k, v) else p)
  else m ++ [(k, v)]

/-- `TimeSeries` (`time_series.py`): timestamps `t`, samples `x` (one entry
per timestamp; the entry type `α` is a scalar `ℚ` for projected series and
`Fin 3 → ℚ` for 3-axis series), plus `units`, `frame`, `meta` tags.
The `__post_init__` reshape of 1-D input is inherent in typing `x` by `α`. -/
structure TimeSeries (τ α : Type) where
  t : List τ
  x : List α
  units : String
  frame : String
  meta : Meta
deriving DecidableEq

/-- `ChunkedTimeSeries` (`time_series.py`): base series plus half-open
index spans `[i0, i1)` into it. -/
structure ChunkedTimeSeries (τ α : Type) where
  base : TimeSeries τ α
  spans : List (ℕ × ℕ)
  meta : Meta
deriving DecidableEq

/-- `ChunkedTimeSeries.iter_chunks`: one view `TimeSeries` per span, with
`t[i0:i1]`, `x[i0:i1]` (Python slicing clamps at the array end, as
`drop`/`take` do) and `meta["chunk"] = (i0, i1)`. -/
def iterChunks {τ α : Type} (c : ChunkedTimeSeries τ α) : List (TimeSeries τ α) :=
  c.spans.map (fun sp =>
    ⟨(c.base.t.drop sp.1).take (sp.2 - sp.1),
     (c.base.x.drop sp.1).take (sp.2 - sp.1),
     c.base.units, c.base.frame,
     metaSet c.base.meta "chunk" (.pair sp.1 sp.2)⟩)

/-- Python `range(start, stop, step)` for naturals, `step > 0`. -/
def pyRange (start stop step : ℕ) : List ℕ :=
  (List.range ((stop - start + step - 1) / step)).map (fun k => start + k * step)

/-- `ChunkStep.run` (`step.py`): spans `(i, i + span_len)` for
`i in range(0, len(ts.x), span_len)`, then the source's trailing-span
check `spans[-1][1] - spans[-1][0] < span_len` (note: every span is
literally `(i, i + span_len)`, so this width is always exactly
`span_len`).  In the source `span_len = int(chunk_t_s * fs_hz)`; the
embedding takes the resulting integer directly and keeps `chunk_t_s`
only for the metadata tag. -/
def chunkStepRun {α : Type} (chunk_t_s : ℚ) (span_len : ℕ) (ts : TimeSeries ℚ α) :
    ChunkedTimeSeries ℚ α :=
  let spans := (pyRange 0 ts.x.length span_len).map (fun i => (i, i + span_len))
  let spans2 :=
    if h : spans ≠ [] then
      if (spans.getLast h).2 - (spans.getLast h).1 < span_len then spans.dropLast else spans
    else spans
  ⟨ts, spans2, metaSet ts.meta "chunk_t_s" (.q chunk_t_s)⟩

/-! ## Relative acceleration (`accel_rotation.py`, `GetRelativeAccel.run`) -/

/-- `GetRelativeAccel.run`: `b_in_a = (rot @ b.x.T).T`, `diff = a.x - b_in_a`;
returns the pair of output `TimeSeries` written to
`outputs[0]` (rotated B) and `outputs[1]` (the difference).  Both are
built with `t=b.t`, `units=b.units`, `frame=a.frame`,
`meta={**b.meta, "rotation_applied": True}` exactly as the source does. -/
def getRelativeAccelRun (a b : TimeSeries ℚ (Fin 3 → ℚ))
    (rot : Matrix (Fin 3) (Fin 3) ℚ) :
    TimeSeries ℚ (Fin 3 → ℚ) × TimeSeries ℚ (Fin 3 → ℚ) :=
  let b_in_a := b.x.map rot.mulVec
  let diff := List.zipWith (fun va vb => va - vb) a.x b_in_a
  (⟨b.t, b_in_a, b.units, a.frame, metaSet b.meta "rotation_applied" (.b true)⟩,
   ⟨b.t, diff, b.units, a.frame, metaSet b.meta "rotation_applied" (.b true)⟩)

/-! ## Runner and cache (`src/backend/classes/runner.py`)

The runner is modelled operationally: the filesystem `.npz` store becomes
an association list from cache path (keyed, as in `_cache_path`, by the
step-identity string `f"{i}_{step.name}"`) to a blob, itself an
association list from npz entry name to a stored array.  Plot rendering
(`make_plots`) touches neither the workspace nor the cache and is
omitted.  A step's computation is a function `Workspace → Workspace`
(the source's `step.run(ws)` mutates `ws` in place). -/

/-- Stored numeric array contents (opaque to the runner: it only moves
arrays around, never inspecting entries). -/
abbrev Arr := List ℚ

/-- The runner reconstructs cached series as `TimeSeries(t=..., x=...)`
with the dataclass defaults `units=""`, `frame=""`, `meta={}`. -/
structure RTimeSeries where
  t : Arr
  x : Arr
  units : String
  frame : String
  meta : Meta
deriving DecidableEq

/-- Workspace artifacts, by the *kind* dispatch the runner performs
(`isinstance(v, TimeSeries)` / `isinstance(v, np.ndarray)` / anything
else, e.g. chunk-pair lists or `ChunkedTimeSeries`, which `_save_cache`
silently skips). -/
inductive Artifact where
  | ts (v : RTimeSeries)
  | arr (v : Arr)
  | other (tag : String)
deriving DecidableEq

/-- Python `dict` keyed by strings, insertion-ordered. -/
abbrev Dict (β : Type) := List (String × β)

/-- Python `d[k]` lookup (first binding; `wsSet` keeps keys unique). -/
def dictGet {β : Type} (d : Dict β) (k : String) : Option β :=
  (d.find? (fun p => p.1 = k)).map (·.2)

/-- Python `k in d`. -/
def dictMem {β : Type} (d : Dict β) (k : String) : Bool :=
  d.any (fun p => p.1 = k)

/-- Python `d[k] = v`: overwrite in place if present, else append. -/
def dictSet {β : Type} (d : Dict β) (k : String) (v : β) : Dict β :=
  if dictMem d k then
    d.map (fun p => if p.1 = k then (k, v) else p)
  else d ++ [(k, v)]

abbrev Workspace := Dict Artifact
abbrev Blob := Dict Arr
abbrev Cache := Dict Blob

/-- A pipeline step as the runner sees it (`step.py` `Step`): static
name/inputs/outputs plus the computation `run`. -/
structure RStep where
  name : String
  inputs : List String
  outputs : List String
  impl : Workspace → Workspace

/-- One iteration of the payload loop in `Runner._save_cache`: a
`TimeSeries` value contributes `k__t` and `k__x` entries, a bare
`ndarray` contributes `k`, every other kind is skipped.  (The source's
`ws[k]` raises on an absent key; the embedding skips it, and no theorem
depends on that branch.) -/
def payloadStep (ws : Workspace) (payload : Blob) (k : String) : Blob :=
  match dictGet ws k with
  | some (.ts v) => dictSet (dictSet payload (k ++ "__t") v.t) (k ++ "__x") v.x
  | some (.arr v) => dictSet payload k v
  | _ => payload

/-- Body of `Runner._save_cache`: the npz payload built from `keys`. -/
def saveCachePayload (ws : Workspace) (keys : List String) : Blob :=
  keys.foldl (payloadStep ws) []

/-- Equality of runner results is decidable (needed to evaluate the
embedded runner on concrete inputs). -/
instance instDecEqExcept {ε α : Type} [DecidableEq ε] [DecidableEq α] :
    DecidableEq (Except ε α) := fun a b =>
  match a, b with
  | .ok x, .ok y => if h : x = y then .isTrue (by rw [h]) else .isFalse (by simp [h])
  | .error x, .error y => if h : x = y then .isTrue (by rw [h]) else .isFalse (by simp [h])
  | .ok _, .error _ => .isFalse (by simp)
  | .error _, .ok _ => .isFalse (by simp)

/-- `Runner._save_cache`: store the payload under the step's cache path. -/
def saveCache (cache : Cache) (stepName : String) (ws : Workspace) (keys : List String) :
    Cache :=
  dictSet cache stepName (saveCachePayload ws keys)

/-- `Runner._load_cache`: `False` when no blob exists; otherwise, for each
requested key with both `k__t` and `k__x` entries present, write
`TimeSeries(t=data[k__t], x=data[k__x])` (default `units`/`frame`/`meta`)
into the workspace, and return `True` — regardless of whether any key was
actually restored.  Keys stored as bare arrays are never restored. -/
def loadCache (cache : Cache) (stepName : String) (ws : Workspace) (keys : List String) :
    Workspace × Bool :=
  match dictGet cache stepName with
  | none => (ws, false)
  | some data =>
      (keys.foldl
        (fun w k =>
          match dictGet data (k ++ "__t"), dictGet data (k ++ "__x") with
          | some tv, some xv => dictSet w k (.ts ⟨tv, xv, "", "", []⟩)
          | _, _ => w)
        ws, true)

/-- Runner configuration (`Runner` dataclass; `out_dir` and `make_plots`
do not affect workspace or cache contents and are dropped). -/
structure RunnerCfg where
  write_cache : Bool
  read_cache : Bool

/-- Step identity string `f"{i}_{step.name}"` from `Runner.run`. -/
def stepKey (i : ℕ) (s : RStep) : String := toString i ++ "_" ++ s.name

/-- Missing-input error raised by `Runner.run` (`KeyError`). -/
structure MissingInputs where
  step : String
  keys : List String
deriving DecidableEq

/-- The per-step loop of `Runner.run`, threading workspace, cache and an
invocation counter for `step.run` calls.  Mirrors, in order: the
read-cache attempt (only when `read_cache` and `step.outputs` is
nonempty), the missing-input check, the computation, and the
write-cache save (only when `write_cache` and `step.outputs` nonempty). -/
def runSteps (cfg : RunnerCfg) : List RStep → ℕ → Workspace → Cache → ℕ →
    Except MissingInputs (Workspace × Cache × ℕ)
  | [], _, ws, cache, count => .ok (ws, cache, count)
  | step :: rest, i, ws, cache, count =>
      let key := stepKey i step
      let attempt :=
        if cfg.read_cache && !step.outputs.isEmpty then loadCache cache key ws step.outputs
        else (ws, false)
      if attempt.2 then
        runSteps cfg rest (i + 1) attempt.1 cache count
      else
        let missing := step.inputs.filter (fun k => !dictMem ws k)
        if missing.isEmpty then
          let ws2 := step.impl ws
          let cache2 :=
            if cfg.write_cache && !step.outputs.isEmpty then saveCache cache key ws2 step.outputs
            else cache
          runSteps cfg rest (i + 1) ws2 cache2 (count + 1)
        else .error ⟨step.name, missing⟩

/-- `Runner.run`: run all steps, then unconditionally
`self._save_cache("all", ws, keys=ws.keys())` and return the workspace
(together with the final cache state and the invocation count). -/
def runnerRun (cfg : RunnerCfg) (ws : Workspace) (steps : List RStep) (cache : Cache) :
    Except MissingInputs (Workspace × Cache × ℕ) :=
  match runSteps cfg steps 0 ws cache 0 with
  | .error e => .error e
  | .ok (ws1, cache1, count) =>
      .ok (ws1, saveCache cache1 "all" ws1 (ws1.map Prod.fst), count)

/-! ## Calibration-chunk detector (`src/backend/fusion.py`,
`FindCalibrationChunks.run`)

The two candidate windows at stride position `i` are the Python slice
objects `slice(i, i + chunk_len)` and `slice(i + chunk_len, i, -1)`;
only these two shapes are used, so `applySlice` implements exactly them.
The acceleration input enters as its first column
(`a_mms = accel[:, 0] * 1000`); `still_len`, `bump_len` and `stride`
are the integers the source derives as `int(…_s * fs_hz)`. -/

/-- A Python `slice` object as appended to the detector's `slices` output
(`step` is `1` for the forward window, `-1` for the mirrored one). -/
structure PySlice where
  start : ℕ
  stop : ℕ
  step : ℤ
deriving DecidableEq, Repr

/-- Indexing a 1-D array by one of the detector's slice objects:
`xs[i : i + L]` for step `1`, and `xs[i + L : i : -1]` (elements at
indices `i + L, …, i + 1`, in that order) for step `-1`. -/
def applySlice (xs : List ℚ) (s : PySlice) : List ℚ :=
  if s.step = 1 then (xs.drop s.start).take (s.stop - s.start)
  else ((xs.drop (s.stop + 1)).take (s.start - s.stop)).reverse

/-- Static configuration of `FindCalibrationChunks` (class attributes;
window lengths already converted from seconds to samples). -/
structure FCCConfig where
  bump_mag_min : ℚ
  still_a_max : ℚ
  bump_dx_min : ℚ
  still_len : ℕ
  bump_len : ℕ
  stride : ℕ
  skips : ℕ
deriving DecidableEq

/-- `chunk_len = still_len + bump_len`. -/
def FCCConfig.chunkLen (c : FCCConfig) : ℕ := c.still_len + c.bump_len

/-- `chunk_r = slice(i, i + chunk_len)`. -/
def sliceR (c : FCCConfig) (i : ℕ) : PySlice := ⟨i, i + c.chunkLen, 1⟩

/-- `chunk_l = slice(i + chunk_len, i, -1)`. -/
def sliceL (c : FCCConfig) (i : ℕ) : PySlice := ⟨i + c.chunkLen, i, -1⟩

/-- `dt_s = np.diff(t, prepend=t[0] - 0.01)`. -/
def dtList (t : List ℚ) : List ℚ :=
  List.zipWith (fun a b => a - b) t ((t.headI - 1 / 100) :: t)

/-- The displacement trace of a candidate: the bump sub-window of the
(sliced) acceleration double-integrated against the (sliced) sample
spacings — `a_int = np.cumsum(a_bump * dt_bump)`,
`a_intint = np.cumsum(a_int * dt_bump)`. -/
def bumpIntint (c : FCCConfig) (a_mms dt : List ℚ) (s : PySlice) : List ℚ :=
  let a_bump := ((applySlice a_mms s).drop c.still_len).take c.bump_len
  let dt_bump := ((applySlice dt s).drop c.still_len).take c.bump_len
  cumsum (List.zipWith (· * ·) (cumsum (List.zipWith (· * ·) a_bump dt_bump)) dt_bump)

/-- The candidate test applied to one slice in the body of the scan loop:
the source's four `continue` guards in order (`still_mag_max` is the
`mag_baseline` input). -/
def chunkQualifies (c : FCCConfig) (mag a_mms dt : List ℚ) (baseline : ℚ)
    (s : PySlice) : Bool :=
  let mag_still := (applySlice mag s).take c.still_len
  let a_still := (applySlice a_mms s).take c.still_len
  let mag_bump := ((applySlice mag s).drop c.still_len).take c.bump_len
  let mag_still_mean := mean mag_still
  if mean mag_still > baseline then false
  else if listMax (a_still.map (fun v => |v|)) > c.still_a_max then false
  else if listMax mag_bump < mag_still_mean + c.bump_mag_min then false
  else if listMax (bumpIntint c a_mms dt s) < c.bump_dx_min then false
  else true

/-- The scan loop of `FindCalibrationChunks.run`: `fuel` is the number of
stride positions left in `range(0, len(a_mms) - chunk_len, stride)`, `i`
the current sample index, `skip` the skip counter.  At an unskipped
position both candidates are tested in order (the forward window first);
each qualifying candidate appends `(chunk_i, a_intint)` and sets
`skip = skips`.  Returns the recorded `(slice, displacement trace)`
events in scan order. -/
def fccLoop (c : FCCConfig) (mag a_mms dt : List ℚ) (baseline : ℚ) :
    ℕ → ℕ → ℕ → List (PySlice × List ℚ)
  | 0, _, _ => []
  | fuel + 1, i, skip + 1 => fccLoop c mag a_mms dt baseline fuel (i + c.stride) skip
  | fuel + 1, i, 0 =>
      let evs :=
        (if chunkQualifies c mag a_mms dt baseline (sliceR c i) then [sliceR c i] else [])
          ++ (if chunkQualifies c mag a_mms dt baseline (sliceL c i) then [sliceL c i] else [])
      evs.map (fun s => (s, bumpIntint c a_mms dt s))
        ++ fccLoop c mag a_mms dt baseline fuel (i + c.stride)
            (if evs.isEmpty then 0 else c.skips)

/-- Number of iterations of `range(0, n - chunk_len, stride)` (`0` when
the Python range is empty, including when `n ≤ chunk_len`). -/
def fccStrideCount (c : FCCConfig) (n : ℕ) : ℕ :=
  (n - c.chunkLen + c.stride - 1) / c.stride

/-- `FindCalibrationChunks.run`: scan `a_mms = accel[:, 0] * 1000` (the
acceleration series enters as its first column `accel0`) against the
magnetometer magnitudes and the baseline; output the three co-indexed
collections `(a_intint_chunks, mag_chunks, slices)`, where
`mag_chunks = [mag[chunk_i][bump_slice] for chunk_i in slices]`. -/
def findCalibrationChunksRun (c : FCCConfig) (mag_ts accel_ts : TimeSeries ℚ ℚ)
    (baseline : ℚ) : List (List ℚ) × List (List ℚ) × List PySlice :=
  let mag := mag_ts.x
  let a_mms := accel_ts.x.map (· * 1000)
  let dt := dtList mag_ts.t
  let events := fccLoop c mag a_mms dt baseline (fccStrideCount c a_mms.length) 0 0
  (events.map (·.2),
   events.map (fun e => ((applySlice mag e.1).drop c.still_len).take c.bump_len),
   events.map (·.1))

/-- The stride position a recorded slice came from: the forward slice
starts at `i`, the mirrored slice stops at `i`. -/
def slicePos (s : PySlice) : ℕ := if s.step = 1 then s.start else s.stop

/-- Claim-side candidate predicate of the spec, for one candidate window:
(1) still-window mean magnetometer magnitude at most the baseline,
(2) still-window peak |acceleration| at most the stillness ceiling,
(3) bump-window peak magnetometer magnitude at least the still mean plus
the minimum bump delta, (4) the double time-integral of bump-window
acceleration reaches the minimum displacement by window end. -/
def CandidateConds (c : FCCConfig) (mag a_mms dt : List ℚ) (baseline : ℚ)
    (s : PySlice) : Prop :=
  mean ((applySlice mag s).take c.still_len) ≤ baseline ∧
  listMax (((applySlice a_mms s).take c.still_len).map (fun v => |v|)) ≤ c.still_a_max ∧
  mean ((applySlice mag s).take c.still_len) + c.bump_mag_min
    ≤ listMax (((applySlice mag s).drop c.still_len).take c.bump_len) ∧
  c.bump_dx_min ≤ listMax (bumpIntint c a_mms dt s)

instance (c : FCCConfig) (mag a_mms dt : List ℚ) (baseline : ℚ) (s : PySlice) :
    Decidable (CandidateConds c mag a_mms dt baseline s) := by
  unfold CandidateConds; infer_instance

/-! ## Alignment subsystem over `ℝ` (`src/backend/accel_rotation.py`)

These steps take Euclidean norms, so they are embedded over `ℝ`
(definitions are `noncomputable` only because exact real comparison and
`Real.sqrt` are; the structure mirrors the source line by line). -/

/-- `np.linalg.norm(v)` of a 3-vector. -/
noncomputable def norm3 (v : Fin 3 → ℝ) : ℝ := Real.sqrt (∑ i, v i ^ 2)

/-- `np.mean(xs)` over a list of reals. -/
noncomputable def rmean (xs : List ℝ) : ℝ := xs.sum / (xs.length : ℝ)

/-- `np.mean(xs, axis=0)`: componentwise mean of a list of 3-vectors. -/
noncomputable def vecMean (xs : List (Fin 3 → ℝ)) : Fin 3 → ℝ :=
  fun i => (xs.map (fun v => v i)).sum / (xs.length : ℝ)

/-- `v / np.linalg.norm(v)`. -/
noncomputable def normalize3 (v : Fin 3 → ℝ) : Fin 3 → ℝ :=
  fun i => v i / norm3 v

/-- Direction confidence of one chunk (`FilterChunkPairs.run`): normalize
every sample, average the unit vectors, take the norm of the average. -/
noncomputable def chunkConf (xs : List (Fin 3 → ℝ)) : ℝ :=
  norm3 (vecMean (xs.map normalize3))

/-- `np.mean(np.linalg.norm(chunk, axis=1))`: mean sample-norm magnitude. -/
noncomputable def chunkMeanMag (xs : List (Fin 3 → ℝ)) : ℝ :=
  rmean (xs.map norm3)

/-- One aligned pair of chunk views. -/
abbrev ChunkPair := TimeSeries ℝ (Fin 3 → ℝ) × TimeSeries ℝ (Fin 3 → ℝ)

/-- `FilterChunkPairs.run` (`accel_rotation.py`): iterate
`zip(a.iter_chunks(), b.iter_chunks())`; for each pair test chunk A's
confidence, then chunk B's (`break` on the first failure, counted as a
jitter reject), then the magnitude difference
`max(mean_accels) - min(mean_accels) > 0.5` (a diff reject); survivors
are appended in order.  Returns `(still_pairs, jitter_rejects,
diff_rejects)`. -/
noncomputable def filterChunkPairsRun (a b : ChunkedTimeSeries ℝ (Fin 3 → ℝ)) :
    List ChunkPair × ℕ × ℕ :=
  ((iterChunks a).zip (iterChunks b)).foldl
    (fun acc p =>
      if chunkConf p.1.x < 0.98 then (acc.1, acc.2.1 + 1, acc.2.2)
      else if chunkConf p.2.x < 0.98 then (acc.1, acc.2.1 + 1, acc.2.2)
      else if max (chunkMeanMag p.1.x) (chunkMeanMag p.2.x)
              - min (chunkMeanMag p.1.x) (chunkMeanMag p.2.x) > 0.5 then
        (acc.1, acc.2.1, acc.2.2 + 1)
      else (acc.1 ++ [p], acc.2.1, acc.2.2))
    ([], 0, 0)

/-- Claim-side keep predicate for one aligned pair (spec §4.3): both
direction confidences at least `0.98` and the two mean magnitudes within
`0.5` of each other. -/
noncomputable def keepPair (p : ChunkPair) : Bool :=
  decide (0.98 ≤ chunkConf p.1.x ∧ 0.98 ≤ chunkConf p.2.x ∧
    |chunkMeanMag p.1.x - chunkMeanMag p.2.x| ≤ 0.5)

/-- Errors surfaced by the travel-vector step.  `axisError` models the
`numpy.exceptions.AxisError` that `np.mean(np.array([]), axis=1)` raises
when no chunk survives.  `degenerateFitError` is the `DegenerateFitError`
of the spec's error taxonomy; no class of that name exists anywhere in
the repository, and the constructor exists only so the spec's claim about
it can be stated. -/
inductive NpError where
  | axisError
  | degenerateFitError
deriving DecidableEq, Repr

/-- The chunking loop of `GetAccelTravelVector.run`: slices
`x[i : i + chunk_size]` for `i in range(0, len(x), chunk_size)`, keeping
only full chunks. -/
def fullChunks {α : Type} (chunk_size : ℕ) (xs : List α) : List (List α) :=
  ((pyRange 0 xs.length chunk_size).map (fun i => (xs.drop i).take chunk_size)).filter
    (fun ch => ch.length = chunk_size)

/-- The chunk-retention filter of `GetAccelTravelVector.run`: DC-remove,
chunk, and keep chunks whose mean-vector magnitude exceeds the threshold
(`chunk_net_magnitude > self.accel_threshold`) and whose mean first-axis
component is negative (`np.mean(chunk, axis=0)[0] < 0`), in the source's
nested-`if` order. -/
noncomputable def goodChunks (chunk_size : ℕ) (accel_threshold : ℝ)
    (a : TimeSeries ℝ (Fin 3 → ℝ)) : List (List (Fin 3 → ℝ)) :=
  let offset := vecMean a.x
  let x := a.x.map (fun v => v - offset)
  (fullChunks chunk_size x).filter (fun ch =>
    if accel_threshold < norm3 (vecMean ch) then
      (if vecMean ch 0 < 0 then true else false)
    else false)

/-- `GetAccelTravelVector.run` (`accel_rotation.py`): on the surviving
chunks, output `(travel_unit_vector, scatter_points)` where the travel
vector is the mean of the surviving chunk means normalized (twice, as in
the source) and `scatter_points` pairs each surviving chunk's magnitude
with its mean vector.  With zero survivors `np.mean(good_chunks, axis=1)`
raises an axis error. -/
noncomputable def getAccelTravelVectorRun (chunk_size : ℕ) (accel_threshold : ℝ)
    (a : TimeSeries ℝ (Fin 3 → ℝ)) :
    Except NpError ((Fin 3 → ℝ) × List (ℝ × (Fin 3 → ℝ))) :=
  let good_chunks := goodChunks chunk_size accel_threshold a
  if good_chunks.isEmpty then .error .axisError
  else
    let chunk_means := good_chunks.map vecMean
    let chunk_mags := chunk_means.map norm3
    let travel_vector := normalize3 (vecMean chunk_means)
    let travel_unit_vector := normalize3 travel_vector
    .ok (travel_unit_vector, chunk_mags.zip chunk_means)

/-! ## Weighted Kabsch/Wahba solver
(`accel_rotation.py`, `RotationFromPairs.kabsch_rotation`)

The SVD `H = U S Vᵀ` is produced by `np.linalg.svd`, an external oracle;
theorems quantify over factors satisfying the SVD equations.  The
deterministic part after the SVD — the candidate `R = U @ Vt`, the
determinant test and the last-column sign flip — is embedded exactly.
Everything is stated over an arbitrary linear ordered field so that the
same definitions serve both the general theorems (over `ℝ`) and exact
witness evaluation (over `ℚ`). -/

variable {K : Type} [LinearOrderedField K]

/-- `U[:, -1] *= -1`: negate the last column. -/
def negLastCol (U : Matrix (Fin 3) (Fin 3) K) : Matrix (Fin 3) (Fin 3) K :=
  U.updateColumn 2 (fun i => -(U i 2))

/-- The reflection fix of `kabsch_rotation`: candidate `R = U @ Vt`; if
`det(R) < 0`, negate U's last column and recompute `R = U @ Vt`. -/
def kabschFromSVD (U Vt : Matrix (Fin 3) (Fin 3) K) : Matrix (Fin 3) (Fin 3) K :=
  if (U * Vt).det < 0 then negLastCol U * Vt else U * Vt

/-- `w = np.maximum(w, 0)`: the nonnegative clamp on the weights. -/
def clampW (w : List K) : List K := w.map (fun v => max v 0)

/-- Weighted cross-covariance `H = (A * w[:, None]).T @ B
= Σ_k w_k a_k b_kᵀ` for corresponding rows `a_k`, `b_k`. -/
def crossCovariance (w : List K) (A B : List (Fin 3 → K)) :
    Matrix (Fin 3) (Fin 3) K :=
  ((w.zip (A.zip B)).map (fun p => p.1 • Matrix.vecMulVec p.2.1 p.2.2)).sum

/-! ## Concrete instances used by counterexamples and witnesses -/

/-- A 10-sample series; chunking it with span length 4 exercises the
trailing-partial-span branch of `ChunkStep.run`. -/
def tsTen : TimeSeries ℚ ℚ :=
  ⟨[0, 1, 2, 3, 4, 5, 6, 7, 8, 9], [0, 1, 2, 3, 4, 5, 6, 7, 8, 9], "m/s^2", "sensor", []⟩

/-- The identity rotation, as an explicit matrix. -/
def rotId : Matrix (Fin 3) (Fin 3) ℚ := Matrix.of ![![1, 0, 0], ![0, 1, 0], ![0, 0, 1]]

/-- Sensor-A series with timestamp 0. -/
def tsA : TimeSeries ℚ (Fin 3 → ℚ) := ⟨[0], [![1, 2, 3]], "ua", "fa", []⟩

/-- Sensor-B series with timestamp 1 (≠ A's). -/
def tsB : TimeSeries ℚ (Fin 3 → ℚ) := ⟨[1], [![4, 5, 6]], "ub", "fb", []⟩

/-- Detector configuration with 1-sample still window, 2-sample bump
window, stride 1, one skip. -/
def cfgC3 : FCCConfig := ⟨1000, 1000, 20, 1, 2, 1, 1⟩

/-- Magnetometer trace: still (50) at both ends, strong bump (2000)
in the middle, so the forward window and its mirror both qualify. -/
def magC3 : TimeSeries ℚ ℚ := ⟨[0, 1, 2, 3], [50, 2000, 2000, 50], "milli-Gauss", "", []⟩

/-- Matching acceleration trace (first column, m/s²): quiet at both
ends, 0.02 m/s² (= 20 mm/s²) during the bump. -/
def accC3 : TimeSeries ℚ ℚ := ⟨[0, 1, 2, 3], [0, 1/50, 1/50, 0], "m/s^2", "", []⟩

/-- A step with a single bare-array output. -/
def stepArr : RStep := ⟨"s", [], ["r"], fun ws => dictSet ws "r" (.arr [1])⟩

/-- A cache holding an existing but output-free blob for step 0 of
`stepArr`. -/
def cacheEmptyBlob : Cache := [("0_s", [])]

/-- A step producing a `TimeSeries` output with nonempty units, frame
and metadata. -/
def stepTS : RStep :=
  ⟨"k", [], ["k"], fun ws => dictSet ws "k" (.ts ⟨[0], [1], "u", "f", [("m", .b true)]⟩)⟩

/-- Workspace produced by running `stepTS` (units/frame/meta intact). -/
def wsTS1 : Workspace := [("k", .ts ⟨[0], [1], "u", "f", [("m", .b true)]⟩)]

/-- Cache written by the first run of `stepTS` (step blob plus the
final "all" blob; only `t` and `x` are stored). -/
def cacheTS1 : Cache :=
  [("0_k", [("k__t", [0]), ("k__x", [1])]), ("all", [("k__t", [0]), ("k__x", [1])])]

/-- Workspace after a cache-read rerun of `stepTS`: same timestamps and
values, but default (empty) units, frame and metadata. -/
def wsTS2 : Workspace := [("k", .ts ⟨[0], [1], "", "", []⟩)]

/-- Relative-acceleration input whose DC-removed samples are all zero:
no chunk survives the travel-vector filter. -/
noncomputable def tsStillC4 : TimeSeries ℝ (Fin 3 → ℝ) :=
  ⟨[0, 1], [![5, 0, 0], ![5, 0, 0]], "m/s^2", "", []⟩

/-- Relative-acceleration input with one surviving chunk (mean
`(-10, 0, 0)`, magnitude 10 > 4.5, negative first axis). -/
noncomputable def tsMoveC4 : TimeSeries ℝ (Fin 3 → ℝ) :=
  ⟨[0, 1], [![-10, 0, 0], ![10, 0, 0]], "m/s^2", "", []⟩

/-- Three pairwise non-colinear unit vectors, the third coplanar with
the first two, so the cross-covariance of the identity-rotated pairs is
rank 2 and the SVD's null direction carries a sign ambiguity. -/
def B0 : List (Fin 3 → ℚ) := [![1, 0, 0], ![0, 1, 0], ![3/5, 4/5, 0]]

/-- Adversarial left SVD factor for `crossCovariance [1,1,1] B0 B0`. -/
def U0 : Matrix (Fin 3) (Fin 3) ℚ :=
  Matrix.of ![![3/5, 4/5, 0], ![4/5, -3/5, 0], ![0, 0, 1]]

/-- Adversarial right SVD factor: same as `U0ᵀ` except the null-space
row is negated, making the unconstrained `U0 * Vt0` a reflection. -/
def Vt0 : Matrix (Fin 3) (Fin 3) ℚ :=
  Matrix.of ![![3/5, 4/5, 0], ![4/5, -3/5, 0], ![0, 0, -1]]

/-- Singular values of the rank-2 cross-covariance. -/
def d0 : Fin 3 → ℚ := ![2, 1, 0]

/-! ## Theorems -/

/-- C6: the claim says the chunking step drops the trailing partial span,
so every span ends within the series and every chunk view has exactly
`span_len` samples.  The code's drop test compares the nominal span width
`(i, i + span_len)` — always exactly `span_len` — so the trailing span is
never dropped: on a 10-sample series with span length 4 the spans are
`[(0,4), (4,8), (8,12)]`, the last span overruns the series
(`12 > 10`), and its chunk view has only 2 samples. -/
theorem c6_chunkstep_keeps_overrunning_trailing_span :
    tsTen.x.length = 10 ∧
    (chunkStepRun (1/4) 4 tsTen).spans = [(0, 4), (4, 8), (8, 12)] ∧
    (iterChunks (chunkStepRun (1/4) 4 tsTen)).map (fun ch => ch.x.length) = [4, 4, 2] := by
  decide

/-- C5 counterexample: the relative-acceleration output takes its
timestamps from sensor B, not from sensor A as the claim states;
on inputs whose timestamp lists differ the output's `t` is B's. -/
theorem c5_output_timestamps_from_B_not_A :
    (getRelativeAccelRun tsA tsB rotId).2.t ≠ tsA.t ∧
    (getRelativeAccelRun tsA tsB rotId).2.t = tsB.t := by
  decide

/-- C5 amended: for every pair of input series and rotation, the
relative-acceleration output has per-sample values `A - R·B`, B's
timestamps (not A's), B's units, A's frame, and B's metadata tagged with
the rotation-applied flag. -/
theorem c5_relative_accel_characterization (a b : TimeSeries ℚ (Fin 3 → ℚ))
    (rot : Matrix (Fin 3) (Fin 3) ℚ) (i : ℕ) (h1 : i < a.x.length) (h2 : i < b.x.length) :
    (getRelativeAccelRun a b rot).2.t = b.t ∧
    (getRelativeAccelRun a b rot).2.units = b.units ∧
    (getRelativeAccelRun a b rot).2.frame = a.frame ∧
    (getRelativeAccelRun a b rot).2.meta = metaSet b.meta "rotation_applied" (.b true) ∧
    (getRelativeAccelRun a b rot).2.x[i]? =
      some (a.x.get ⟨i, h1⟩ - rot.mulVec (b.x.get ⟨i, h2⟩)) := by
  refine ⟨rfl, rfl, rfl, rfl, ?_⟩
  show (List.zipWith (fun va vb => va - vb) a.x (b.x.map rot.mulVec))[i]? = _
  rw [List.getElem?_zipWith', List.getElem?_map,
    List.getElem?_eq_getElem h1, List.getElem?_eq_getElem h2]
  simp [List.get_eq_getElem]

/-- C5 witness: the amended characterization evaluated at sample 0 of
the concrete inputs. -/
theorem c5_relative_accel_characterization_witness :
    0 < tsA.x.length ∧ 0 < tsB.x.length ∧
    ((getRelativeAccelRun tsA tsB rotId).2.t = tsB.t ∧
     (getRelativeAccelRun tsA tsB rotId).2.units = tsB.units ∧
     (getRelativeAccelRun tsA tsB rotId).2.frame = tsA.frame ∧
     (getRelativeAccelRun tsA tsB rotId).2.meta =
       metaSet tsB.meta "rotation_applied" (.b true) ∧
     (getRelativeAccelRun tsA tsB rotId).2.x[0]? =
       some (tsA.x.get ⟨0, by decide⟩ - rotId.mulVec (tsB.x.get ⟨0, by decide⟩))) :=
  ⟨by decide, by decide,
   c5_relative_accel_characterization tsA tsB rotId 0 (by decide) (by decide)⟩

/-- The source's nested `continue` guards, taken in order, succeed
exactly when the four spec conditions hold. -/
theorem chunkQualifies_iff (c : FCCConfig) (mag a_mms dt : List ℚ) (baseline : ℚ)
    (s : PySlice) :
    chunkQualifies c mag a_mms dt baseline s = true ↔
      CandidateConds c mag a_mms dt baseline s := by
  simp only [chunkQualifies, CandidateConds, bumpIntint]
  split_ifs with h1 h2 h3 h4
  · simp only [false_iff]; intro h; exact absurd h.1 (not_le.2 h1)
  · simp only [false_iff]; intro h; exact absurd h.2.1 (not_le.2 h2)
  · simp only [false_iff]; intro h; exact absurd h.2.2.1 (not_le.2 h3)
  · simp only [false_iff]; intro h; exact absurd h.2.2.2 (not_le.2 h4)
  · simp only [true_iff]
    exact ⟨not_lt.1 h1, not_lt.1 h2, not_lt.1 h3, not_lt.1 h4⟩

theorem slicePos_sliceR (c : FCCConfig) (i : ℕ) : slicePos (sliceR c i) = i := by
  simp [slicePos, sliceR]

theorem slicePos_sliceL (c : FCCConfig) (i : ℕ) : slicePos (sliceL c i) = i := by
  simp [slicePos, sliceL]

/-- Every event recorded from loop state `(i, skip)` comes from a stride
position at least `skip` strides beyond `i`. -/
theorem fccLoop_pos_le (c : FCCConfig) (mag a_mms dt : List ℚ) (baseline : ℚ) :
    ∀ (fuel i skip : ℕ) (e : PySlice × List ℚ),
      e ∈ fccLoop c mag a_mms dt baseline fuel i skip →
      i + skip * c.stride ≤ slicePos e.1 := by
  intro fuel
  induction fuel with
  | zero => intro i skip e h; simp [fccLoop] at h
  | succ n ih =>
    intro i skip e h
    match skip with
    | skip + 1 =>
      have h2 := ih (i + c.stride) skip e h
      have : (skip + 1) * c.stride = skip * c.stride + c.stride := by ring
      omega
    | 0 =>
      simp only [fccLoop, List.mem_append, List.mem_map] at h
      rcases h with ⟨s, hs, rfl⟩ | h
      · rcases hs with hr | hl
        · have : s = sliceR c i := by
            by_cases hq : chunkQualifies c mag a_mms dt baseline (sliceR c i) <;>
              simp [hq] at hr
            exact hr
          simp [this, slicePos_sliceR]
        · have : s = sliceL c i := by
            by_cases hq : chunkQualifies c mag a_mms dt baseline (sliceL c i) <;>
              simp [hq] at hl
            exact hl
          simp [this, slicePos_sliceL]
      · have h2 := ih (i + c.stride) _ e h
        omega

theorem pairwise_of_all_eq {α : Type} (R : α → α → Prop) (a : α) (hR : R a a) :
    ∀ l : List α, (∀ x ∈ l, x = a) → l.Pairwise R := by
  intro l
  induction l with
  | nil => intro _; exact List.Pairwise.nil
  | cons x xs ih =>
    intro h
    have hx : x = a := h x (by simp)
    refine List.Pairwise.cons ?_ (ih (fun y hy => h y (by simp [hy])))
    intro y hy
    have hy2 : y = a := h y (by simp [hy])
    rw [hx, hy2]; exact hR

/-- Any two events recorded by the scan loop either share a stride
position or are at least `(skips + 1) · stride` samples apart. -/
theorem fccLoop_positions_pairwise (c : FCCConfig) (mag a_mms dt : List ℚ)
    (baseline : ℚ) :
    ∀ (fuel i skip : ℕ),
      ((fccLoop c mag a_mms dt baseline fuel i skip).map (fun e => slicePos e.1)).Pairwise
        (fun p q => p = q ∨ p + (c.skips + 1) * c.stride ≤ q) := by
  intro fuel
  induction fuel with
  | zero => intro i skip; simp [fccLoop]
  | succ n ih =>
    intro i skip
    match skip with
    | skip + 1 => exact ih _ _
    | 0 =>
      simp only [fccLoop, List.map_append, List.map_map]
      rw [List.pairwise_append]
      have hall : ∀ x ∈ (List.map ((fun (e : PySlice × List ℚ) => slicePos e.1) ∘
              fun s => (s, bumpIntint c a_mms dt s))
            (if chunkQualifies c mag a_mms dt baseline (sliceR c i) = true
              then [sliceR c i] else []) ++
          List.map ((fun (e : PySlice × List ℚ) => slicePos e.1) ∘
              fun s => (s, bumpIntint c a_mms dt s))
            (if chunkQualifies c mag a_mms dt baseline (sliceL c i) = true
              then [sliceL c i] else [])), x = i := by
        intro x hx
        rcases List.mem_append.1 hx with hr | hl
        · simp only [List.mem_map, Function.comp] at hr
          obtain ⟨s, hs, rfl⟩ := hr
          by_cases hq : chunkQualifies c mag a_mms dt baseline (sliceR c i) = true <;>
            simp [hq] at hs
          simp [hs, slicePos_sliceR]
        · simp only [List.mem_map, Function.comp] at hl
          obtain ⟨s, hs, rfl⟩ := hl
          by_cases hq : chunkQualifies c mag a_mms dt baseline (sliceL c i) = true <;>
            simp [hq] at hs
          simp [hs, slicePos_sliceL]
      refine ⟨pairwise_of_all_eq _ i (Or.inl rfl) _ hall, ih _ _, ?_⟩
      intro x hx y hy
      have hxi : x = i := hall x hx
      simp only [List.mem_map] at hy
      obtain ⟨e, he, rfl⟩ := hy
      have hpos := fccLoop_pos_le c mag a_mms dt baseline _ _ _ e he
      by_cases hempty : ((if chunkQualifies c mag a_mms dt baseline (sliceR c i) = true
            then [sliceR c i] else []) ++
            (if chunkQualifies c mag a_mms dt baseline (sliceL c i) = true
            then [sliceL c i] else [])).isEmpty = true
      · rw [List.isEmpty_iff] at hempty
        rcases List.append_eq_nil.1 hempty with ⟨h1, h2⟩
        simp only [h1, h2, List.map_nil, List.append_nil, List.not_mem_nil] at hx
      · rw [if_neg hempty] at hpos
        right
        have hmul : (c.skips + 1) * c.stride = c.skips * c.stride + c.stride := by ring
        omega

/-- At an unskipped stride position, membership of either candidate in
the loop's whole output is decided there: events from later positions
have strictly larger stride positions. -/
theorem fccLoop_head_mem (c : FCCConfig) (mag a_mms dt : List ℚ) (baseline : ℚ)
    (i fuel : ℕ) (hs : 1 ≤ c.stride) (s : PySlice) (hpos : slicePos s = i) :
    (s ∈ (fccLoop c mag a_mms dt baseline (fuel + 1) i 0).map Prod.fst ↔
      s ∈ ((if chunkQualifies c mag a_mms dt baseline (sliceR c i) = true
              then [sliceR c i] else []) ++
           (if chunkQualifies c mag a_mms dt baseline (sliceL c i) = true
              then [sliceL c i] else []))) := by
  simp only [fccLoop, List.map_append, List.map_map, List.mem_append]
  constructor
  · rintro ((hr | hl) | h)
    · left
      simp only [List.mem_map, Function.comp] at hr
      obtain ⟨u, hu, rfl⟩ := hr
      exact hu
    · right
      simp only [List.mem_map, Function.comp] at hl
      obtain ⟨u, hu, rfl⟩ := hl
      exact hu
    · exfalso
      simp only [List.mem_map] at h
      obtain ⟨e, he, rfl⟩ := h
      have hle := fccLoop_pos_le c mag a_mms dt baseline _ _ _ e he
      omega
  · rintro (hr | hl)
    · exact Or.inl (Or.inl (by
        simp only [List.mem_map, Function.comp]
        exact ⟨s, hr, rfl⟩))
    · exact Or.inl (Or.inr (by
        simp only [List.mem_map, Function.comp]
        exact ⟨s, hl, rfl⟩))

/-- C2: at every scanned stride position reached with an inactive skip
counter, each of the two candidate chunks (forward window and
time-reversed mirror) is recorded as an event if and only if all four
spec conditions hold: still-window magnetometer mean ≤ baseline,
still-window peak |acceleration| ≤ ceiling, bump-window magnetometer
peak ≥ still mean + minimum bump delta, and the double time-integral of
bump-window acceleration reaching the minimum displacement. -/
theorem c2_candidate_recorded_iff (c : FCCConfig) (mag a_mms dt : List ℚ)
    (baseline : ℚ) (i fuel : ℕ) (hs : 1 ≤ c.stride) :
    (sliceR c i ∈ (fccLoop c mag a_mms dt baseline (fuel + 1) i 0).map Prod.fst ↔
      CandidateConds c mag a_mms dt baseline (sliceR c i)) ∧
    (sliceL c i ∈ (fccLoop c mag a_mms dt baseline (fuel + 1) i 0).map Prod.fst ↔
      CandidateConds c mag a_mms dt baseline (sliceL c i)) := by
  have hne : sliceR c i ≠ sliceL c i := by simp [sliceR, sliceL]
  constructor
  · rw [fccLoop_head_mem c mag a_mms dt baseline i fuel hs _ (slicePos_sliceR c i),
      ← chunkQualifies_iff]
    by_cases hqR : chunkQualifies c mag a_mms dt baseline (sliceR c i) = true <;>
      by_cases hqL : chunkQualifies c mag a_mms dt baseline (sliceL c i) = true <;>
      simp [hqR, hqL, hne]
  · rw [fccLoop_head_mem c mag a_mms dt baseline i fuel hs _ (slicePos_sliceL c i),
      ← chunkQualifies_iff]
    by_cases hqR : chunkQualifies c mag a_mms dt baseline (sliceR c i) = true <;>
      by_cases hqL : chunkQualifies c mag a_mms dt baseline (sliceL c i) = true <;>
      simp [hqR, hqL, Ne.symm hne]

/-- C2 witness: the characterization instantiated on a concrete
configuration (stride 1) and concrete traces. -/
theorem c2_candidate_recorded_iff_witness :
    1 ≤ cfgC3.stride ∧
    ((sliceR cfgC3 0 ∈
        (fccLoop cfgC3 magC3.x (accC3.x.map (· * 1000)) (dtList magC3.t) 100 (0 + 1) 0 0).map
          Prod.fst ↔
      CandidateConds cfgC3 magC3.x (accC3.x.map (· * 1000)) (dtList magC3.t) 100
        (sliceR cfgC3 0)) ∧
     (sliceL cfgC3 0 ∈
        (fccLoop cfgC3 magC3.x (accC3.x.map (· * 1000)) (dtList magC3.t) 100 (0 + 1) 0 0).map
          Prod.fst ↔
      CandidateConds cfgC3 magC3.x (accC3.x.map (· * 1000)) (dtList magC3.t) 100
        (sliceL cfgC3 0))) :=
  ⟨by decide,
   c2_candidate_recorded_iff cfgC3 magC3.x (accC3.x.map (· * 1000)) (dtList magC3.t)
     100 0 0 (by decide)⟩

/-- C3 counterexample: at stride position 0 of this input both the
forward window and its mirror qualify, so the detector records two
events at the same stride position — the claim's "no further event is
recorded at that same stride position" fails. -/
theorem c3_two_events_at_same_stride_position :
    (findCalibrationChunksRun cfgC3 magC3 accC3 100).2.2 =
      [⟨0, 3, 1⟩, ⟨3, 0, -1⟩] ∧
    slicePos (⟨0, 3, 1⟩ : PySlice) = slicePos (⟨3, 0, -1⟩ : PySlice) := by
  constructor
  · norm_num [findCalibrationChunksRun, cfgC3, magC3, accC3, fccLoop, fccStrideCount,
      chunkQualifies, bumpIntint, applySlice, sliceR, sliceL, FCCConfig.chunkLen,
      mean, listMax, cumsum, dtList, List.max?]
  · decide

/-- C3 amended: after a qualifying candidate is recorded at a stride
position, the mirrored candidate at that same position is still examined
and may also be recorded; the skip counter then suppresses the following
`skips` stride positions, so any two recorded events either share a
stride position or lie at least `(skips + 1) · stride` samples apart. -/
theorem c3_overlap_suppression_gap (c : FCCConfig) (mag_ts accel_ts : TimeSeries ℚ ℚ)
    (baseline : ℚ) :
    (((findCalibrationChunksRun c mag_ts accel_ts baseline).2.2).map slicePos).Pairwise
      (fun p q => p = q ∨ p + (c.skips + 1) * c.stride ≤ q) := by
  unfold findCalibrationChunksRun
  simp only [List.map_map]
  exact fccLoop_positions_pairwise c _ _ _ baseline _ 0 0

/-! ### Dictionary lemmas (Python `dict` semantics of the embedding) -/

theorem dictGet_cons {β : Type} (p : String × β) (rest : Dict β) (k : String) :
    dictGet (p :: rest) k = if p.1 = k then some p.2 else dictGet rest k := by
  by_cases h : p.1 = k
  · simp [dictGet, List.find?_cons_of_pos, h]
  · rw [if_neg h]
    unfold dictGet
    rw [List.find?_cons_of_neg _ (by simpa using h)]

theorem dictMem_cons {β : Type} (p : String × β) (rest : Dict β) (k : String) :
    dictMem (p :: rest) k = (decide (p.1 = k) || dictMem rest k) := by
  simp [dictMem]

theorem dictGet_map_subst {β : Type} (k k' : String) (v : β) (h : k ≠ k') :
    ∀ d : Dict β,
      dictGet (d.map (fun q => if q.1 = k' then (k', v) else q)) k = dictGet d k := by
  intro d
  induction d with
  | nil => rfl
  | cons q rs ih =>
    simp only [List.map_cons, dictGet_cons]
    by_cases hq : q.1 = k'
    · rw [if_pos hq]
      have h1 : ¬ ((k', v).1 = k) := fun hh => h hh.symm
      have h2 : ¬ (q.1 = k) := by rw [hq]; exact fun hh => h hh.symm
      rw [if_neg h1, if_neg h2, ih]
    · rw [if_neg hq, ih]

theorem dictGet_append_single_ne {β : Type} (k k' : String) (v : β) (h : k ≠ k') :
    ∀ d : Dict β, dictGet (d ++ [(k', v)]) k = dictGet d k := by
  intro d
  induction d with
  | nil =>
    simp only [List.nil_append, dictGet_cons, if_neg (fun hh : k' = k => h hh.symm)]
  | cons q rs ih =>
    simp only [List.cons_append, dictGet_cons, ih]

theorem dictGet_dictSet_ne {β : Type} (d : Dict β) (k k' : String) (v : β)
    (h : k ≠ k') :
    dictGet (dictSet d k' v) k = dictGet d k := by
  unfold dictSet
  by_cases hc : dictMem d k'
  · rw [if_pos hc]; exact dictGet_map_subst k k' v h d
  · rw [if_neg hc]; exact dictGet_append_single_ne k k' v h d

theorem dictGet_map_subst_self {β : Type} (k : String) (v : β) :
    ∀ d : Dict β, dictMem d k = true →
      dictGet (d.map (fun q => if q.1 = k then (k, v) else q)) k = some v := by
  intro d
  induction d with
  | nil => intro h; simp [dictMem] at h
  | cons q rs ih =>
    intro hmem
    simp only [List.map_cons, dictGet_cons]
    by_cases hq : q.1 = k
    · rw [if_pos hq]
      simp
    · rw [if_neg hq, if_neg hq]
      apply ih
      rw [dictMem_cons] at hmem
      simpa [hq] using hmem

theorem dictGet_append_single_self {β : Type} (k : String) (v : β) :
    ∀ d : Dict β, dictMem d k = false → dictGet (d ++ [(k, v)]) k = some v := by
  intro d
  induction d with
  | nil => intro _; simp [dictGet_cons]
  | cons q rs ih =>
    intro hmem
    rw [dictMem_cons] at hmem
    simp only [Bool.or_eq_false_iff, decide_eq_false_iff_not] at hmem
    rw [List.cons_append, dictGet_cons, if_neg hmem.1]
    exact ih hmem.2

theorem dictGet_dictSet_self {β : Type} (d : Dict β) (k : String) (v : β) :
    dictGet (dictSet d k v) k = some v := by
  unfold dictSet
  by_cases hc : dictMem d k
  · rw [if_pos hc]; exact dictGet_map_subst_self k v d hc
  · rw [if_neg hc]
    exact dictGet_append_single_self k v d (by simpa using hc)

theorem dictGet_isSome_dictSet {β : Type} (d : Dict β) (k k' : String) (v : β)
    (h : (dictGet d k).isSome = true) :
    (dictGet (dictSet d k' v) k).isSome = true := by
  by_cases hk : k = k'
  · subst hk; rw [dictGet_dictSet_self]; rfl
  · rw [dictGet_dictSet_ne d k k' v hk]; exact h

theorem dictGet_some_mem {β : Type} (d : Dict β) (k : String) (v : β)
    (h : dictGet d k = some v) : k ∈ d.map Prod.fst := by
  unfold dictGet at h
  cases hf : d.find? (fun p => p.1 = k) with
  | none => rw [hf] at h; exact absurd h (by simp)
  | some p =>
    have hp := List.find?_some hf
    have hmem := List.mem_of_find?_eq_some hf
    simp only [decide_eq_true_eq] at hp
    rw [← hp]
    exact List.mem_map_of_mem Prod.fst hmem

/-! ### Cache-payload lemmas -/

theorem appendRightCancel (s1 s2 t : String) (h : s1 ++ t = s2 ++ t) : s1 = s2 := by
  have hd : (s1 ++ t).data = (s2 ++ t).data := by rw [h]
  simp only [String.data_append] at hd
  exact String.ext (List.append_cancel_right hd)

theorem append_t_ne_append_x (s1 s2 : String) : s1 ++ "__t" ≠ s2 ++ "__x" := by
  intro h
  have hd : (s1 ++ "__t").data = (s2 ++ "__x").data := by rw [h]
  simp only [String.data_append] at hd
  have h1 : (s1.data ++ "__t".data).getLast? = (s2.data ++ "__x".data).getLast? := by
    rw [hd]
  rw [List.getLast?_append_of_ne_nil _ (by decide),
    List.getLast?_append_of_ne_nil _ (by decide)] at h1
  simp at h1

theorem payloadStep_preserves (ws : Workspace) (K k0 : String) (p0 : Blob)
    (ht : K ≠ k0 ++ "__t") (hx : K ≠ k0 ++ "__x") (hk : K ≠ k0) :
    dictGet (payloadStep ws p0 k0) K = dictGet p0 K := by
  unfold payloadStep
  cases hv : dictGet ws k0 with
  | none => rfl
  | some a =>
    cases a with
    | ts v =>
      show dictGet (dictSet (dictSet p0 (k0 ++ "__t") v.t) (k0 ++ "__x") v.x) K =
        dictGet p0 K
      rw [dictGet_dictSet_ne _ _ _ _ hx, dictGet_dictSet_ne _ _ _ _ ht]
    | arr v =>
      show dictGet (dictSet p0 k0 v) K = dictGet p0 K
      rw [dictGet_dictSet_ne _ _ _ _ hk]
    | other tag => rfl

theorem foldl_payload_preserves (ws : Workspace) (K : String) :
    ∀ (keys : List String) (p0 : Blob),
      (∀ k' ∈ keys, K ≠ k' ++ "__t" ∧ K ≠ k' ++ "__x" ∧ K ≠ k') →
      dictGet (keys.foldl (payloadStep ws) p0) K = dictGet p0 K := by
  intro keys
  induction keys with
  | nil => intro p0 _; rfl
  | cons k0 rest ih =>
    intro p0 hyp
    have h0 := hyp k0 (by simp)
    rw [List.foldl_cons, ih _ (fun k' hk' => hyp k' (by simp [hk'])),
      payloadStep_preserves ws K k0 p0 h0.1 h0.2.1 h0.2.2]

/-- Every `TimeSeries` artifact reachable through a saved key yields its
timestamps and values in the payload, under key hygiene (no duplicate
workspace keys, no key equal to another's `__t`/`__x` suffix form). -/
theorem saveCachePayload_ts_mem (ws : Workspace) :
    ∀ (keys : List String) (p0 : Blob) (k : String) (v : RTimeSeries),
      keys.Nodup →
      (∀ k1 ∈ keys, ∀ k2 ∈ keys, k1 ≠ k2 ++ "__t" ∧ k1 ≠ k2 ++ "__x") →
      k ∈ keys → dictGet ws k = some (.ts v) →
      dictGet (keys.foldl (payloadStep ws) p0) (k ++ "__t") = some v.t ∧
      dictGet (keys.foldl (payloadStep ws) p0) (k ++ "__x") = some v.x := by
  intro keys
  induction keys with
  | nil => intro p0 k v _ _ hk; exact absurd hk (by simp)
  | cons k0 rest ih =>
    intro p0 k v hnd hyg hk hv
    rcases List.mem_cons.1 hk with rfl | hkrest
    · have hnotin : k ∉ rest := (List.nodup_cons.1 hnd).1
      rw [List.foldl_cons]
      have hpres : ∀ K : String, (K = k ++ "__t" ∨ K = k ++ "__x") →
          dictGet (rest.foldl (payloadStep ws) (payloadStep ws p0 k)) K =
            dictGet (payloadStep ws p0 k) K := by
        intro K hK
        apply foldl_payload_preserves
        intro k' hk'
        have hne : k' ≠ k := fun hh => hnotin (hh ▸ hk')
        have hyg1 := hyg k' (by simp [hk']) k (by simp)
        rcases hK with rfl | rfl
        · exact ⟨fun hh => hne (appendRightCancel _ _ _ hh).symm,
            fun hh => append_t_ne_append_x k k' hh,
            fun hh => hyg1.1 hh.symm⟩
        · exact ⟨fun hh => append_t_ne_append_x k' k hh.symm,
            fun hh => hne (appendRightCancel _ _ _ hh).symm,
            fun hh => hyg1.2 hh.symm⟩
      constructor
      · rw [hpres _ (Or.inl rfl)]
        unfold payloadStep
        rw [hv, dictGet_dictSet_ne _ _ _ _ (append_t_ne_append_x k k),
          dictGet_dictSet_self]
      · rw [hpres _ (Or.inr rfl)]
        unfold payloadStep
        rw [hv, dictGet_dictSet_self]
    · rw [List.foldl_cons]
      exact ih _ k v (List.nodup_cons.1 hnd).2
        (fun k1 h1 k2 h2 => hyg k1 (by simp [h1]) k2 (by simp [h2])) hkrest hv

/-- Every bare-array artifact reachable through a saved key appears in
the payload under its own key, under the same hygiene conditions. -/
theorem saveCachePayload_arr_mem (ws : Workspace) :
    ∀ (keys : List String) (p0 : Blob) (k : String) (a : Arr),
      keys.Nodup →
      (∀ k1 ∈ keys, ∀ k2 ∈ keys, k1 ≠ k2 ++ "__t" ∧ k1 ≠ k2 ++ "__x") →
      k ∈ keys → dictGet ws k = some (.arr a) →
      dictGet (keys.foldl (payloadStep ws) p0) k = some a := by
  intro keys
  induction keys with
  | nil => intro p0 k a _ _ hk; exact absurd hk (by simp)
  | cons k0 rest ih =>
    intro p0 k a hnd hyg hk hv
    rcases List.mem_cons.1 hk with rfl | hkrest
    · have hnotin : k ∉ rest := (List.nodup_cons.1 hnd).1
      rw [List.foldl_cons]
      rw [foldl_payload_preserves ws k rest _ (fun k' hk' => by
        have hne : k' ≠ k := fun hh => hnotin (hh ▸ hk')
        have hyg1 := hyg k (by simp) k' (by simp [hk'])
        exact ⟨hyg1.1, hyg1.2, fun hh => hne hh.symm⟩)]
      unfold payloadStep
      rw [hv, dictGet_dictSet_self]
    · rw [List.foldl_cons]
      exact ih _ k a (List.nodup_cons.1 hnd).2
        (fun k1 h1 k2 h2 => hyg k1 (by simp [h1]) k2 (by simp [h2])) hkrest hv

/-! ### Runner lemmas -/

theorem loadCache_snd (cache : Cache) (stepName : String) (ws : Workspace)
    (keys : List String) :
    (loadCache cache stepName ws keys).2 = (dictGet cache stepName).isSome := by
  unfold loadCache
  cases h : dictGet cache stepName <;> simp

theorem runSteps_cache_mono (cfg : RunnerCfg) :
    ∀ (steps : List RStep) (i : ℕ) (ws : Workspace) (cache : Cache) (count : ℕ)
      (ws1 : Workspace) (cache1 : Cache) (n1 : ℕ) (k : String),
      runSteps cfg steps i ws cache count = .ok (ws1, cache1, n1) →
      (dictGet cache k).isSome = true → (dictGet cache1 k).isSome = true := by
  intro steps
  induction steps with
  | nil =>
    intro i ws cache count ws1 cache1 n1 k h hk
    simp only [runSteps, Except.ok.injEq, Prod.mk.injEq] at h
    rw [← h.2.1]; exact hk
  | cons s rest ih =>
    intro i ws cache count ws1 cache1 n1 k h hk
    simp only [runSteps] at h
    split at h
    · split at h
      · exact ih _ _ _ _ _ _ _ _ h hk
      · split at h
        · refine ih _ _ _ _ _ _ _ _ h ?_
          split
          · exact dictGet_isSome_dictSet _ _ _ _ hk
          · exact hk
        · exact absurd h (by simp)
    · split at h
      · rename_i hfalse
        exact absurd hfalse (by simp)
      · split at h
        · refine ih _ _ _ _ _ _ _ _ h ?_
          split
          · exact dictGet_isSome_dictSet _ _ _ _ hk
          · exact hk
        · exact absurd h (by simp)

/-- Under `write_cache`, a successful run leaves a cache blob for every
step (either freshly written, or pre-existing when the step was a cache
hit). -/
theorem runSteps_blobs_exist (cfg : RunnerCfg) (hcw : cfg.write_cache = true) :
    ∀ (steps : List RStep), (∀ s ∈ steps, s.outputs ≠ []) →
      ∀ (i : ℕ) (ws : Workspace) (cache : Cache) (count : ℕ)
        (ws1 : Workspace) (cache1 : Cache) (n1 : ℕ),
        runSteps cfg steps i ws cache count = .ok (ws1, cache1, n1) →
        ∀ j (hj : j < steps.length),
          (dictGet cache1 (stepKey (i + j) (steps.get ⟨j, hj⟩))).isSome = true := by
  intro steps
  induction steps with
  | nil => intro _ i ws cache count ws1 cache1 n1 _ j hj; exact absurd hj (by simp)
  | cons s rest ih =>
    intro ho i ws cache count ws1 cache1 n1 h j hj
    have hoe : s.outputs.isEmpty = false := by
      cases houts : s.outputs with
      | nil => exact absurd houts (ho s (by simp))
      | cons a l => rfl
    have hrest : ∀ t ∈ rest, t.outputs ≠ [] := fun t ht => ho t (by simp [ht])
    match j with
    | 0 =>
      show (dictGet cache1 (stepKey (i + 0) s)).isSome = true
      have hi0 : i + 0 = i := rfl
      rw [hi0]
      simp only [runSteps] at h
      split at h
      · split at h
        · rename_i hload
          have hsome : (dictGet cache (stepKey i s)).isSome = true := by
            rw [loadCache_snd] at hload; exact hload
          exact runSteps_cache_mono cfg rest _ _ _ _ _ _ _ _ h hsome
        · split at h
          · refine runSteps_cache_mono cfg rest _ _ _ _ _ _ _ _ h ?_
            split
            · unfold saveCache; rw [dictGet_dictSet_self]; rfl
            · rename_i hnw; rw [hcw, hoe] at hnw; exact absurd rfl hnw
          · exact absurd h (by simp)
      · split at h
        · rename_i hfalse
          exact absurd hfalse (by simp)
        · split at h
          · refine runSteps_cache_mono cfg rest _ _ _ _ _ _ _ _ h ?_
            split
            · unfold saveCache; rw [dictGet_dictSet_self]; rfl
            · rename_i hnw; rw [hcw, hoe] at hnw; exact absurd rfl hnw
          · exact absurd h (by simp)
    | j + 1 =>
      have hj2 : j < rest.length := by simpa using hj
      have heq : i + (j + 1) = i + 1 + j := by omega
      show (dictGet cache1 (stepKey (i + (j + 1)) (rest.get ⟨j, hj2⟩))).isSome = true
      rw [heq]
      simp only [runSteps] at h
      split at h
      · split at h
        · exact ih hrest (i + 1) _ _ _ _ _ _ h j hj2
        · split at h
          · exact ih hrest (i + 1) _ _ _ _ _ _ h j hj2
          · exact absurd h (by simp)
      · split at h
        · rename_i hfalse
          exact absurd hfalse (by simp)
        · split at h
          · exact ih hrest (i + 1) _ _ _ _ _ _ h j hj2
          · exact absurd h (by simp)

/-- With read-caching on and a blob present for every step, the loop
performs only cache hits: no computation, no cache writes. -/
theorem runSteps_all_hits (cfg : RunnerCfg) (hr : cfg.read_cache = true) :
    ∀ (steps : List RStep), (∀ s ∈ steps, s.outputs ≠ []) →
      ∀ (i : ℕ) (ws : Workspace) (cache : Cache) (count : ℕ),
        (∀ j (hj : j < steps.length),
          (dictGet cache (stepKey (i + j) (steps.get ⟨j, hj⟩))).isSome = true) →
        ∃ ws1, runSteps cfg steps i ws cache count = .ok (ws1, cache, count) := by
  intro steps
  induction steps with
  | nil => intro _ i ws cache count _; exact ⟨ws, rfl⟩
  | cons s rest ih =>
    intro ho i ws cache count hblob
    have hoe : s.outputs.isEmpty = false := by
      cases houts : s.outputs with
      | nil => exact absurd houts (ho s (by simp))
      | cons a l => rfl
    have hsome : (dictGet cache (stepKey i s)).isSome = true := by
      have := hblob 0 (by simp)
      simpa using this
    obtain ⟨ws1, hrec⟩ := ih (fun t ht => ho t (by simp [ht])) (i + 1)
      (loadCache cache (stepKey i s) ws s.outputs).1 cache count
      (fun j hj => by
        have := hblob (j + 1) (by simpa using hj)
        have heq : i + (j + 1) = i + 1 + j := by omega
        rw [heq] at this
        simpa using this)
    refine ⟨ws1, ?_⟩
    simp only [runSteps, hr, hoe, Bool.not_false, Bool.and_self, loadCache_snd, hsome,
      if_true]
    exact hrec

/-- C7 counterexample: with read-caching on, a cache blob that exists
but contains none of the step's declared outputs still produces a
"cache hit": the computation is skipped (0 invocations) and the declared
output `"r"` is never loaded into the workspace — though the claim
requires a hit only when the blob contains every declared output, and
that all outputs then be loaded. -/
theorem c7_blob_existence_suffices_for_hit :
    dictGet cacheEmptyBlob (stepKey 0 stepArr) = some [] ∧
    stepArr.outputs = ["r"] ∧
    runnerRun ⟨false, true⟩ [] [stepArr] cacheEmptyBlob =
      .ok ([], [("0_s", []), ("all", [])], 0) ∧
    dictGet ([] : Workspace) "r" = none := by
  refine ⟨by decide, by decide, by decide, by decide⟩

/-- C7 amended: the runner skips a step's computation iff read-caching
is enabled, the step declares at least one output, and a cache blob
exists under the step's identity key — regardless of the blob's
contents.  On such a hit the workspace receives exactly the outputs
stored in the blob as `__t`/`__x` pairs (via `loadCache`); otherwise the
inputs are verified and the computation invoked (once), or a missing-key
error is raised. -/
theorem c7_cache_hit_characterization (cfg : RunnerCfg) (ws : Workspace)
    (cache : Cache) (s : RStep) :
    (cfg.read_cache = true → s.outputs ≠ [] → (dictGet cache (stepKey 0 s)).isSome = true →
      runnerRun cfg ws [s] cache =
        .ok ((loadCache cache (stepKey 0 s) ws s.outputs).1,
             saveCache cache "all" (loadCache cache (stepKey 0 s) ws s.outputs).1
               ((loadCache cache (stepKey 0 s) ws s.outputs).1.map Prod.fst), 0)) ∧
    (cfg.read_cache = false ∨ s.outputs = [] ∨ dictGet cache (stepKey 0 s) = none →
      s.inputs.filter (fun k => !dictMem ws k) = [] →
      runnerRun cfg ws [s] cache =
        .ok (s.impl ws,
             saveCache
               (if cfg.write_cache && !s.outputs.isEmpty
                then saveCache cache (stepKey 0 s) (s.impl ws) s.outputs else cache)
               "all" (s.impl ws) ((s.impl ws).map Prod.fst), 1)) ∧
    (cfg.read_cache = false ∨ s.outputs = [] ∨ dictGet cache (stepKey 0 s) = none →
      s.inputs.filter (fun k => !dictMem ws k) ≠ [] →
      runnerRun cfg ws [s] cache =
        .error ⟨s.name, s.inputs.filter (fun k => !dictMem ws k)⟩) := by
  have hattempt : ∀ _ : cfg.read_cache = false ∨ s.outputs = [] ∨
      dictGet cache (stepKey 0 s) = none,
      (if cfg.read_cache && !s.outputs.isEmpty
        then loadCache cache (stepKey 0 s) ws s.outputs
        else (ws, false)).2 = false := by
    intro h
    rcases h with h | h | h
    · rw [h]; simp
    · rw [h]; simp
    · by_cases hcond : (cfg.read_cache && !s.outputs.isEmpty) = true
      · rw [if_pos hcond, loadCache_snd, h]; rfl
      · rw [if_neg hcond]
  refine ⟨?_, ?_, ?_⟩
  · intro hr ho hsome
    unfold runnerRun runSteps
    have hoe : s.outputs.isEmpty = false := by
      cases houts : s.outputs with
      | nil => exact absurd houts ho
      | cons a l => rfl
    rw [hr, hoe]
    simp only [Bool.and_self, Bool.not_false, if_pos] at *
    rw [if_pos (by rw [loadCache_snd]; exact hsome)]
    rfl
  · intro hmiss hinputs
    unfold runnerRun runSteps
    rw [if_neg (by rw [hattempt hmiss]; exact fun hh => nomatch hh)]
    rw [hinputs]
    rfl
  · intro hmiss hinputs
    unfold runnerRun runSteps
    rw [if_neg (by rw [hattempt hmiss]; exact fun hh => nomatch hh)]
    rw [if_neg (by
      intro hh
      exact hinputs (List.isEmpty_iff.1 hh))]

/-- C7 witness: the hit branch of the characterization on the concrete
empty-blob cache. -/
theorem c7_cache_hit_characterization_witness :
    (⟨false, true⟩ : RunnerCfg).read_cache = true ∧ stepArr.outputs ≠ [] ∧
    (dictGet cacheEmptyBlob (stepKey 0 stepArr)).isSome = true ∧
    runnerRun ⟨false, true⟩ [] [stepArr] cacheEmptyBlob =
      .ok ((loadCache cacheEmptyBlob (stepKey 0 stepArr) [] stepArr.outputs).1,
           saveCache cacheEmptyBlob "all"
             (loadCache cacheEmptyBlob (stepKey 0 stepArr) [] stepArr.outputs).1
             ((loadCache cacheEmptyBlob (stepKey 0 stepArr) [] stepArr.outputs).1.map
               Prod.fst), 0) :=
  ⟨rfl, by decide, by decide,
   (c7_cache_hit_characterization ⟨false, true⟩ [] cacheEmptyBlob stepArr).1 rfl
     (by decide) (by decide)⟩

/-- C8 counterexample: a step writing a `TimeSeries` with nonempty
units/frame/metadata; the cache-read rerun restores only timestamps and
values, so the two runs' workspace contents differ at key `"k"` — the
claimed "identical Workspace content (including TimeSeries units, frame
and metadata)" fails. -/
theorem c8_cached_rerun_loses_units_and_meta :
    runnerRun ⟨true, false⟩ [] [stepTS] [] = .ok (wsTS1, cacheTS1, 1) ∧
    runnerRun ⟨false, true⟩ [] [stepTS] cacheTS1 = .ok (wsTS2, cacheTS1, 0) ∧
    dictGet wsTS1 "k" ≠ dictGet wsTS2 "k" := by
  refine ⟨by decide, by decide, by decide⟩

/-- C8 amended: if the first run (with cache writes enabled) succeeds
and every step declares at least one output, then rerunning the same
step list from the same initial workspace against the first run's cache
with reads enabled succeeds with zero step invocations.  (Workspace
content is *not* identical in general: restored `TimeSeries` lose
units/frame/metadata and non-`TimeSeries` outputs are not restored.) -/
theorem c8_second_run_zero_invocations (cfg1 cfg2 : RunnerCfg) (ws0 : Workspace)
    (steps : List RStep) (cache0 : Cache) (ws1 : Workspace) (cache1 : Cache) (n1 : ℕ)
    (h1 : runnerRun cfg1 ws0 steps cache0 = .ok (ws1, cache1, n1))
    (hcw : cfg1.write_cache = true) (hr : cfg2.read_cache = true)
    (ho : ∀ s ∈ steps, s.outputs ≠ []) :
    ∃ ws2 cache2, runnerRun cfg2 ws0 steps cache1 = .ok (ws2, cache2, 0) := by
  unfold runnerRun at h1
  cases hrun : runSteps cfg1 steps 0 ws0 cache0 0 with
  | error e => rw [hrun] at h1; exact absurd h1 (by simp)
  | ok out =>
    obtain ⟨wsA, cacheA, nA⟩ := out
    rw [hrun] at h1
    simp only [Except.ok.injEq, Prod.mk.injEq] at h1
    obtain ⟨hws, hcache, hn⟩ := h1
    have hblobsA := runSteps_blobs_exist cfg1 hcw steps ho 0 ws0 cache0 0 wsA cacheA nA hrun
    have hblobs1 : ∀ j (hj : j < steps.length),
        (dictGet cache1 (stepKey (0 + j) (steps.get ⟨j, hj⟩))).isSome = true := by
      intro j hj
      rw [← hcache]
      unfold saveCache
      exact dictGet_isSome_dictSet _ _ _ _ (hblobsA j hj)
    obtain ⟨ws2, hrun2⟩ := runSteps_all_hits cfg2 hr steps ho 0 ws0 cache1 0 hblobs1
    refine ⟨ws2, saveCache cache1 "all" ws2 (ws2.map Prod.fst), ?_⟩
    unfold runnerRun
    rw [hrun2]

/-- C8 witness: the zero-invocation rerun on the concrete one-step
pipeline. -/
theorem c8_second_run_zero_invocations_witness :
    runnerRun ⟨true, false⟩ [] [stepTS] [] = .ok (wsTS1, cacheTS1, 1) ∧
    (⟨true, false⟩ : RunnerCfg).write_cache = true ∧
    (⟨false, true⟩ : RunnerCfg).read_cache = true ∧
    (∀ s ∈ [stepTS], s.outputs ≠ []) ∧
    (∃ ws2 cache2, runnerRun ⟨false, true⟩ [] [stepTS] cacheTS1 = .ok (ws2, cache2, 0)) :=
  ⟨by decide, rfl, rfl, by decide,
   c8_second_run_zero_invocations ⟨true, false⟩ ⟨false, true⟩ [] [stepTS] [] wsTS1
     cacheTS1 1 (by decide) rfl rfl (by decide)⟩

/-- C10: every successful run — whatever the caching configuration,
including `write_cache = false` — persists one additional cache blob
keyed `"all"`, whose payload (under key hygiene: distinct workspace keys
and no key colliding with another's `__t`/`__x` form) contains the
timestamps and values of every `TimeSeries` in the final workspace and
every bare array under its own key. -/
theorem c10_unconditional_all_blob (cfg : RunnerCfg) (ws : Workspace)
    (steps : List RStep) (cache : Cache) (ws1 : Workspace) (cache1 : Cache) (n1 : ℕ)
    (h : runnerRun cfg ws steps cache = .ok (ws1, cache1, n1))
    (hnd : (ws1.map Prod.fst).Nodup)
    (hclash : ∀ k1 ∈ ws1.map Prod.fst, ∀ k2 ∈ ws1.map Prod.fst,
      k1 ≠ k2 ++ "__t" ∧ k1 ≠ k2 ++ "__x") :
    dictGet cache1 "all" = some (saveCachePayload ws1 (ws1.map Prod.fst)) ∧
    (∀ k v, dictGet ws1 k = some (.ts v) →
      dictGet (saveCachePayload ws1 (ws1.map Prod.fst)) (k ++ "__t") = some v.t ∧
      dictGet (saveCachePayload ws1 (ws1.map Prod.fst)) (k ++ "__x") = some v.x) ∧
    (∀ k a, dictGet ws1 k = some (.arr a) →
      dictGet (saveCachePayload ws1 (ws1.map Prod.fst)) k = some a) := by
  refine ⟨?_, ?_, ?_⟩
  · unfold runnerRun at h
    cases hrun : runSteps cfg steps 0 ws cache 0 with
    | error e => rw [hrun] at h; exact absurd h (by simp)
    | ok out =>
      obtain ⟨wsA, cacheA, nA⟩ := out
      rw [hrun] at h
      simp only [Except.ok.injEq, Prod.mk.injEq] at h
      obtain ⟨hws, hcache, hn⟩ := h
      rw [← hcache, ← hws]
      unfold saveCache
      exact dictGet_dictSet_self _ _ _
  · intro k v hv
    have hk : k ∈ ws1.map Prod.fst := dictGet_some_mem ws1 k _ hv
    exact saveCachePayload_ts_mem ws1 (ws1.map Prod.fst) [] k v hnd hclash hk hv
  · intro k a hv
    have hk : k ∈ ws1.map Prod.fst := dictGet_some_mem ws1 k _ hv
    exact saveCachePayload_arr_mem ws1 (ws1.map Prod.fst) [] k a hnd hclash hk hv

/-- C10 witness: a run with `write_cache = false` still writes the
`"all"` blob, whose payload carries the stored series. -/
theorem c10_unconditional_all_blob_witness :
    runnerRun ⟨false, false⟩ [] [stepTS] [] =
      .ok (wsTS1, [("all", [("k__t", [0]), ("k__x", [1])])], 1) ∧
    (wsTS1.map Prod.fst).Nodup ∧
    (∀ k1 ∈ wsTS1.map Prod.fst, ∀ k2 ∈ wsTS1.map Prod.fst,
      k1 ≠ k2 ++ "__t" ∧ k1 ≠ k2 ++ "__x") ∧
    dictGet [("all", [("k__t", [0]), ("k__x", [1])])] "all" =
      some (saveCachePayload wsTS1 (wsTS1.map Prod.fst)) :=
  ⟨by decide, by decide, by decide,
   (c10_unconditional_all_blob ⟨false, false⟩ [] [stepTS] [] wsTS1
     [("all", [("k__t", [0]), ("k__x", [1])])] 1 (by decide) (by decide) (by decide)).1⟩

/-! ### Stillness/jitter pair filter (C9) -/

theorem keepPair_false_of_confA {p : ChunkPair} (h1 : chunkConf p.1.x < 0.98) :
    keepPair p = false := by
  have : ¬(0.98 ≤ chunkConf p.1.x ∧ 0.98 ≤ chunkConf p.2.x ∧
      |chunkMeanMag p.1.x - chunkMeanMag p.2.x| ≤ 0.5) :=
    fun hc => absurd hc.1 (not_le.2 h1)
  simp [keepPair, this]

/-- C9: the stillness/jitter filter keeps exactly the aligned pairs with
both direction confidences at least 0.98 and mean-magnitude difference
at most 0.5, in their original order: its survivor list is literally
the `filter` of the zipped chunk lists by that predicate. -/
theorem c9_pair_filter_is_filter (a b : ChunkedTimeSeries ℝ (Fin 3 → ℝ)) :
    (filterChunkPairsRun a b).1 =
      ((iterChunks a).zip (iterChunks b)).filter keepPair := by
  unfold filterChunkPairsRun
  suffices h : ∀ (l : List ChunkPair) (pairs : List ChunkPair) (jr dr : ℕ),
      (l.foldl
        (fun acc p =>
          if chunkConf p.1.x < 0.98 then (acc.1, acc.2.1 + 1, acc.2.2)
          else if chunkConf p.2.x < 0.98 then (acc.1, acc.2.1 + 1, acc.2.2)
          else if max (chunkMeanMag p.1.x) (chunkMeanMag p.2.x)
                  - min (chunkMeanMag p.1.x) (chunkMeanMag p.2.x) > 0.5 then
            (acc.1, acc.2.1, acc.2.2 + 1)
          else (acc.1 ++ [p], acc.2.1, acc.2.2))
        (pairs, jr, dr)).1 = pairs ++ l.filter keepPair by
    simpa using h (((iterChunks a).zip (iterChunks b))) [] 0 0
  intro l
  induction l with
  | nil => intro pairs jr dr; simp
  | cons p rest ih =>
    intro pairs jr dr
    simp only [List.foldl_cons, List.filter_cons]
    by_cases h1 : chunkConf p.1.x < 0.98
    · rw [if_pos h1, ih, keepPair_false_of_confA h1]
      simp
    · rw [if_neg h1]
      by_cases h2 : chunkConf p.2.x < 0.98
      · rw [if_pos h2, ih]
        have hk : keepPair p = false := by
          have : ¬(0.98 ≤ chunkConf p.1.x ∧ 0.98 ≤ chunkConf p.2.x ∧
              |chunkMeanMag p.1.x - chunkMeanMag p.2.x| ≤ 0.5) :=
            fun hc => absurd hc.2.1 (not_le.2 h2)
          simp [keepPair, this]
        rw [hk]
        simp
      · rw [if_neg h2]
        by_cases h3 : max (chunkMeanMag p.1.x) (chunkMeanMag p.2.x)
            - min (chunkMeanMag p.1.x) (chunkMeanMag p.2.x) > 0.5
        · rw [if_pos h3, ih]
          have hk : keepPair p = false := by
            have habs : ¬ |chunkMeanMag p.1.x - chunkMeanMag p.2.x| ≤ 0.5 := by
              rw [← max_sub_min_eq_abs, max_comm, min_comm]
              exact not_le.2 h3
            have : ¬(0.98 ≤ chunkConf p.1.x ∧ 0.98 ≤ chunkConf p.2.x ∧
                |chunkMeanMag p.1.x - chunkMeanMag p.2.x| ≤ 0.5) :=
              fun hc => absurd hc.2.2 habs
            simp [keepPair, this]
          rw [hk]
          simp
        · rw [if_neg h3, ih]
          have hk : keepPair p = true := by
            have habs : |chunkMeanMag p.1.x - chunkMeanMag p.2.x| ≤ 0.5 := by
              rw [← max_sub_min_eq_abs, max_comm, min_comm]
              exact not_lt.1 h3
            simp [keepPair, not_lt.1 h1, not_lt.1 h2, habs]
          rw [hk]
          simp

/-! ### Travel-vector extraction (C4) -/

theorem norm3_nonneg (v : Fin 3 → ℝ) : 0 ≤ norm3 v := Real.sqrt_nonneg _

theorem norm3_pos_of_ne (v : Fin 3 → ℝ) (i : Fin 3) (h : v i ≠ 0) : 0 < norm3 v := by
  unfold norm3
  apply Real.sqrt_pos.2
  apply Finset.sum_pos' (fun j _ => sq_nonneg (v j))
  exact ⟨i, Finset.mem_univ i, by positivity⟩

/-- Normalization yields a unit vector whenever the input norm is
positive. -/
theorem norm3_normalize3 (v : Fin 3 → ℝ) (h : 0 < norm3 v) :
    norm3 (normalize3 v) = 1 := by
  have hne : norm3 v ≠ 0 := ne_of_gt h
  have hsum : ∑ i, (normalize3 v i) ^ 2 = (∑ i, v i ^ 2) / (norm3 v) ^ 2 := by
    simp_rw [normalize3, div_pow]
    rw [← Finset.sum_div]
  show Real.sqrt (∑ i, (normalize3 v i) ^ 2) = 1
  rw [hsum, Real.sqrt_div (by positivity) _, Real.sqrt_sq (le_of_lt h)]
  show norm3 v / norm3 v = 1
  exact div_self hne

theorem listSum_neg : ∀ l : List ℝ, l ≠ [] → (∀ x ∈ l, x < 0) → l.sum < 0 := by
  intro l
  induction l with
  | nil => intro h _; exact absurd rfl h
  | cons x rest ih =>
    intro _ hall
    rw [List.sum_cons]
    by_cases hr : rest = []
    · subst hr; simpa using hall x (by simp)
    · have := ih hr (fun y hy => hall y (by simp [hy]))
      have hx := hall x (by simp)
      linarith

/-- The directional gate: every surviving chunk has negative mean
first-axis component. -/
theorem goodChunks_mean_neg (cs : ℕ) (th : ℝ) (a : TimeSeries ℝ (Fin 3 → ℝ)) :
    ∀ ch ∈ goodChunks cs th a, vecMean ch 0 < 0 := by
  intro ch hch
  unfold goodChunks at hch
  rw [List.mem_filter] at hch
  have hpred := hch.2
  split_ifs at hpred with h1 h2
  exact h2

/-- The step raises the (numpy) axis error exactly when no chunk
survives. -/
theorem getAccelTravelVector_error_iff (cs : ℕ) (th : ℝ)
    (a : TimeSeries ℝ (Fin 3 → ℝ)) :
    getAccelTravelVectorRun cs th a = .error .axisError ↔
      goodChunks cs th a = [] := by
  unfold getAccelTravelVectorRun
  by_cases hg : (goodChunks cs th a).isEmpty = true
  · rw [if_pos hg]
    simp [List.isEmpty_iff.1 hg]
  · rw [if_neg hg]
    constructor
    · intro h; exact absurd h (by simp)
    · intro h; rw [h] at hg; exact absurd rfl hg

/-- Whenever the step succeeds, the emitted travel vector has unit
norm: the directional gate forces the mean of the surviving chunk means
to have negative first component, hence a positive norm, so the double
normalization lands on the unit sphere. -/
theorem getAccelTravelVector_ok_unit (cs : ℕ) (th : ℝ)
    (a : TimeSeries ℝ (Fin 3 → ℝ)) (v : Fin 3 → ℝ) (pts : List (ℝ × (Fin 3 → ℝ)))
    (h : getAccelTravelVectorRun cs th a = .ok (v, pts)) : norm3 v = 1 := by
  unfold getAccelTravelVectorRun at h
  by_cases hg : (goodChunks cs th a).isEmpty = true
  · rw [if_pos hg] at h
    exact absurd h (by simp)
  · rw [if_neg hg] at h
    simp only [Except.ok.injEq, Prod.mk.injEq] at h
    obtain ⟨hv, hpts⟩ := h
    have hnonempty : goodChunks cs th a ≠ [] := by
      intro hh; rw [hh] at hg; exact absurd rfl hg
    set m := vecMean ((goodChunks cs th a).map vecMean) with hm
    have hm0 : m 0 < 0 := by
      rw [hm]
      unfold vecMean
      apply div_neg_of_neg_of_pos
      · rw [List.map_map]
        apply listSum_neg
        · simp [hnonempty]
        · intro x hx
          rw [List.mem_map] at hx
          obtain ⟨ch, hch, rfl⟩ := hx
          exact goodChunks_mean_neg cs th a ch hch
      · simp only [List.length_map]
        have : 0 < (goodChunks cs th a).length := List.length_pos.2 hnonempty
        exact_mod_cast this
    have hmpos : 0 < norm3 m := norm3_pos_of_ne m 0 (ne_of_lt hm0)
    have h1 : norm3 (normalize3 m) = 1 := norm3_normalize3 m hmpos
    have h2 : 0 < norm3 (normalize3 m) := by rw [h1]; exact one_pos
    rw [← hv]
    exact norm3_normalize3 _ h2

/-- On the all-still input, no chunk survives the filter. -/
theorem goodChunks_still_empty : goodChunks 1 4.5 tsStillC4 = [] := by
  have hoff : vecMean tsStillC4.x = ![5, 0, 0] := by
    funext i
    fin_cases i <;> simp [vecMean, tsStillC4]
  have hx : tsStillC4.x.map (fun v => v - vecMean tsStillC4.x) =
      [fun _ => 0, fun _ => 0] := by
    rw [hoff]
    show [(![5, 0, 0] : Fin 3 → ℝ) - ![5, 0, 0], ![5, 0, 0] - ![5, 0, 0]] = _
    have h1 : (![5, 0, 0] : Fin 3 → ℝ) - ![5, 0, 0] = fun _ => 0 := by
      funext i; fin_cases i <;> simp
    rw [h1]
  unfold goodChunks
  show (fullChunks 1 (tsStillC4.x.map (fun v => v - vecMean tsStillC4.x))).filter
      (fun ch => if (4.5 : ℝ) < norm3 (vecMean ch) then
        (if vecMean ch 0 < 0 then true else false) else false) = []
  rw [hx]
  have hchunks : fullChunks 1 ([fun _ => 0, fun _ => 0] : List (Fin 3 → ℝ)) =
      [[fun _ => 0], [fun _ => 0]] := by
    simp [fullChunks, pyRange, List.range_succ]
  rw [hchunks]
  have hpred : ∀ ch ∈ ([[fun _ => 0], [fun _ => 0]] : List (List (Fin 3 → ℝ))),
      (if (4.5 : ℝ) < norm3 (vecMean ch) then
        (if vecMean ch 0 < 0 then true else false) else false) = false := by
    intro ch hch
    have hmean : vecMean ch = fun _ => (0 : ℝ) := by
      rcases List.mem_cons.1 hch with rfl | hch2
      · funext i; simp [vecMean]
      · rcases List.mem_cons.1 hch2 with rfl | h3
        · funext i; simp [vecMean]
        · exact absurd h3 (by simp)
    rw [hmean]
    have hn : norm3 (fun _ => (0 : ℝ)) = 0 := by
      simp [norm3]
    rw [if_neg (by rw [hn]; norm_num)]
  exact List.filter_eq_nil_iff.2
    (fun ch hch => by rw [hpred ch hch]; exact fun hh => nomatch hh)

theorem norm3_neg10 : norm3 (![-10, 0, 0] : Fin 3 → ℝ) = 10 := by
  unfold norm3
  rw [Fin.sum_univ_three]
  norm_num
  rw [show (100 : ℝ) = 10 ^ 2 by norm_num, Real.sqrt_sq (by norm_num)]

theorem norm3_neg1 : norm3 (![-1, 0, 0] : Fin 3 → ℝ) = 1 := by
  unfold norm3
  rw [Fin.sum_univ_three]
  norm_num

theorem vecMean_move : vecMean [(![-10, 0, 0] : Fin 3 → ℝ)] = ![-10, 0, 0] := by
  funext i
  fin_cases i <;> simp [vecMean]

/-- Full evaluation of the travel-vector step on the two-sample input
with one surviving chunk. -/
theorem travel_move_eval : getAccelTravelVectorRun 1 4.5 tsMoveC4 =
    .ok (![-1, 0, 0], [(10, ![-10, 0, 0])]) := by
  have hoff : vecMean tsMoveC4.x = ![0, 0, 0] := by
    funext i
    fin_cases i <;> simp [vecMean, tsMoveC4]
  have hx : tsMoveC4.x.map (fun v => v - vecMean tsMoveC4.x) =
      [![-10, 0, 0], ![10, 0, 0]] := by
    rw [hoff]
    show [(![-10, 0, 0] : Fin 3 → ℝ) - ![0, 0, 0], ![10, 0, 0] - ![0, 0, 0]] = _
    have h1 : (![-10, 0, 0] : Fin 3 → ℝ) - ![0, 0, 0] = ![-10, 0, 0] := by
      funext i; fin_cases i <;> simp
    have h2 : (![10, 0, 0] : Fin 3 → ℝ) - ![0, 0, 0] = ![10, 0, 0] := by
      funext i; fin_cases i <;> simp
    rw [h1, h2]
  have hm2 : vecMean [(![10, 0, 0] : Fin 3 → ℝ)] = ![10, 0, 0] := by
    funext i
    fin_cases i <;> simp [vecMean]
  have hn2 : norm3 (![10, 0, 0] : Fin 3 → ℝ) = 10 := by
    unfold norm3
    rw [Fin.sum_univ_three]
    norm_num
    rw [show (100 : ℝ) = 10 ^ 2 by norm_num, Real.sqrt_sq (by norm_num)]
  have hgood : goodChunks 1 4.5 tsMoveC4 = [[![-10, 0, 0]]] := by
    unfold goodChunks
    show (fullChunks 1 (tsMoveC4.x.map (fun v => v - vecMean tsMoveC4.x))).filter
        (fun ch => if (4.5 : ℝ) < norm3 (vecMean ch) then
          (if vecMean ch 0 < 0 then true else false) else false) = _
    rw [hx]
    have hchunks : fullChunks 1 ([![-10, 0, 0], ![10, 0, 0]] : List (Fin 3 → ℝ)) =
        [[![-10, 0, 0]], [![10, 0, 0]]] := by
      simp [fullChunks, pyRange, List.range_succ]
    rw [hchunks]
    rw [List.filter_cons, List.filter_cons]
    rw [if_pos (by
      rw [vecMean_move, norm3_neg10]
      rw [if_pos (by norm_num : (4.5 : ℝ) < 10)]
      rw [if_pos (by norm_num : (![-10, 0, 0] : Fin 3 → ℝ) 0 < 0)])]
    rw [if_neg (by
      rw [hm2, hn2]
      rw [if_pos (by norm_num : (4.5 : ℝ) < 10)]
      rw [if_neg (by norm_num : ¬ ((![10, 0, 0] : Fin 3 → ℝ) 0 < 0))]
      exact fun hh => nomatch hh)]
    rfl
  unfold getAccelTravelVectorRun
  rw [hgood]
  rw [if_neg (by simp)]
  simp only [List.map_cons, List.map_nil, vecMean_move, norm3_neg10]
  have htv : normalize3 (![-10, 0, 0] : Fin 3 → ℝ) = ![-1, 0, 0] := by
    funext i
    fin_cases i <;> simp [normalize3, norm3_neg10]
  have htuv : normalize3 (![-1, 0, 0] : Fin 3 → ℝ) = ![-1, 0, 0] := by
    funext i
    fin_cases i <;> simp [normalize3, norm3_neg1]
  rw [htv, htuv]
  simp [List.zip]

/-- C4 counterexample: with zero surviving chunks the step fails with
the numpy axis error from `np.mean(np.array([]), axis=1)`, not with the
`DegenerateFitError` the claim names — no class of that name exists in
the repository. -/
theorem c4_zero_survivors_axis_error_not_degenerate :
    getAccelTravelVectorRun 1 4.5 tsStillC4 = .error .axisError ∧
    NpError.axisError ≠ NpError.degenerateFitError :=
  ⟨(getAccelTravelVector_error_iff 1 4.5 tsStillC4).2 goodChunks_still_empty,
   by decide⟩

/-- C4 amended: zero surviving chunks makes the step raise an untyped
numpy axis error (not a `DegenerateFitError`, which the code never
defines); it never silently returns, and whenever at least one chunk
survives the emitted travel vector has unit norm. -/
theorem c4_travel_vector_error_and_unit_norm (cs : ℕ) (th : ℝ)
    (a : TimeSeries ℝ (Fin 3 → ℝ)) :
    (getAccelTravelVectorRun cs th a = .error .axisError ↔
      goodChunks cs th a = []) ∧
    (∀ v pts, getAccelTravelVectorRun cs th a = .ok (v, pts) → norm3 v = 1) :=
  ⟨getAccelTravelVector_error_iff cs th a,
   fun v pts h => getAccelTravelVector_ok_unit cs th a v pts h⟩

/-- C4 witness: the concrete two-sample input with one surviving chunk
yields the unit travel vector `(-1, 0, 0)`. -/
theorem c4_travel_vector_error_and_unit_norm_witness :
    getAccelTravelVectorRun 1 4.5 tsMoveC4 =
      .ok (![-1, 0, 0], [(10, ![-10, 0, 0])]) ∧
    norm3 (![-1, 0, 0] : Fin 3 → ℝ) = 1 :=
  ⟨travel_move_eval,
   (c4_travel_vector_error_and_unit_norm 1 4.5 tsMoveC4).2 ![-1, 0, 0]
     [(10, ![-10, 0, 0])] travel_move_eval⟩

end Sus

namespace Sus

/-- Negating the last column negates the determinant. -/
theorem negLastCol_det {K : Type} [LinearOrderedField K]
    (U : Matrix (Fin 3) (Fin 3) K) : (negLastCol U).det = -U.det := by
  unfold negLastCol
  have h : (fun i => -(U i 2)) = (-1 : K) • (fun i => U i 2) := by
    funext i; simp
  rw [h, Matrix.det_updateColumn_smul, Matrix.updateColumn_eq_self]
  ring

/-- For orthogonal SVD factors the reflection fix always yields
determinant +1: either branch of `kabschFromSVD` is proper. -/
theorem kabsch_det_one {K : Type} [LinearOrderedField K]
    (U Vt : Matrix (Fin 3) (Fin 3) K)
    (hU : U.transpose * U = 1) (hV : Vt.transpose * Vt = 1) :
    (kabschFromSVD U Vt).det = 1 := by
  have hdU : U.det = 1 ∨ U.det = -1 := by
    have h2 : U.det * U.det = 1 := by
      have := congrArg Matrix.det hU
      rwa [Matrix.det_mul, Matrix.det_transpose, Matrix.det_one] at this
    exact mul_self_eq_one_iff.1 h2
  have hdV : Vt.det = 1 ∨ Vt.det = -1 := by
    have h2 : Vt.det * Vt.det = 1 := by
      have := congrArg Matrix.det hV
      rwa [Matrix.det_mul, Matrix.det_transpose, Matrix.det_one] at this
    exact mul_self_eq_one_iff.1 h2
  have hdetUV : (U * Vt).det = U.det * Vt.det := Matrix.det_mul U Vt
  unfold kabschFromSVD
  by_cases hneg : (U * Vt).det < 0
  · rw [if_pos hneg, Matrix.det_mul, negLastCol_det]
    rw [hdetUV] at hneg
    rcases hdU with h | h <;> rcases hdV with h' | h' <;>
      rw [h, h'] at hneg ⊢ <;> norm_num at hneg ⊢
  · rw [if_neg hneg]
    rw [hdetUV] at hneg ⊢
    rcases hdU with h | h <;> rcases hdV with h' | h' <;>
      rw [h, h'] at hneg ⊢ <;> norm_num at hneg ⊢

end Sus
namespace Sus

/-- Exact recovery: if `U S Vt` is an SVD of `R * M` with `M`
positive semidefinite, all singular values positive, and `R` a proper
rotation, then the reflection-fixed product recovers `R` exactly.
The proof identifies `M` with the PSD square root of `(R M)ᵀ (R M)`
and cancels the invertible singular-value factor. -/
theorem kabsch_exact_recovery
    (R M U Vt : Matrix (Fin 3) (Fin 3) ℝ) (d : Fin 3 → ℝ)
    (hR : R.transpose * R = 1) (hdetR : R.det = 1)
    (hM : M.PosSemidef)
    (hd : ∀ i, 0 < d i)
    (hsvd : U * Matrix.diagonal d * Vt = R * M)
    (hU : U.transpose * U = 1) (hV : Vt.transpose * Vt = 1) :
    kabschFromSVD U Vt = R := by
  set S := Matrix.diagonal d with hS
  set Q := R.transpose * U with hQ
  have hRR : R * R.transpose = 1 := Matrix.mul_eq_one_comm.1 hR
  have hVV : Vt * Vt.transpose = 1 := Matrix.mul_eq_one_comm.1 hV
  have hQS : Q * S * Vt = M := by
    rw [hQ]
    calc (R.transpose * U) * S * Vt = R.transpose * (U * S * Vt) := by
          simp only [Matrix.mul_assoc]
      _ = R.transpose * (R * M) := by rw [hsvd]
      _ = (R.transpose * R) * M := by simp only [Matrix.mul_assoc]
      _ = M := by rw [hR, Matrix.one_mul]
  have hQQ : Q.transpose * Q = 1 := by
    rw [hQ, Matrix.transpose_mul, Matrix.transpose_transpose]
    calc U.transpose * R * (R.transpose * U)
        = U.transpose * ((R * R.transpose) * U) := by simp only [Matrix.mul_assoc]
      _ = U.transpose * U := by rw [hRR, Matrix.one_mul]
      _ = 1 := hU
  have hSsym : S.transpose = S := Matrix.diagonal_transpose d
  have hMsym : M.transpose = M := by
    have h := hM.isHermitian
    rwa [Matrix.IsHermitian, Matrix.conjTranspose_eq_transpose_of_trivial] at h
  have hMt : M.transpose = Vt.transpose * (S * Q.transpose) := by
    rw [← hQS]
    simp only [Matrix.transpose_mul, hSsym, Matrix.mul_assoc]
  have hM2 : M * M = Vt.transpose * (S * (S * Vt)) := by
    have hMM : M * M = M.transpose * M := by rw [hMsym]
    rw [hMM, hMt, ← hQS]
    simp only [Matrix.mul_assoc]
    rw [show Q.transpose * (Q * (S * Vt)) = S * Vt by
      rw [← Matrix.mul_assoc, hQQ, Matrix.one_mul]]
  set P := Vt.transpose * (S * Vt) with hP
  have hP2 : P * P = Vt.transpose * (S * (S * Vt)) := by
    rw [hP]
    simp only [Matrix.mul_assoc]
    rw [show Vt * (Vt.transpose * (S * Vt)) = S * Vt by
      rw [← Matrix.mul_assoc, hVV, Matrix.one_mul]]
  have hSpsd : S.PosSemidef := by
    rw [hS]
    exact Matrix.posSemidef_diagonal_iff.2 (fun i => le_of_lt (hd i))
  have hPpsd : P.PosSemidef := by
    have h := hSpsd.conjTranspose_mul_mul_same Vt
    rw [Matrix.conjTranspose_eq_transpose_of_trivial] at h
    rw [hP, ← Matrix.mul_assoc]
    exact h
  have hMP : M = P := hM.eq_of_sq_eq_sq hPpsd (by rw [pow_two, pow_two, hM2, hP2])
  have hQSV : Q * (S * Vt) = Vt.transpose * (S * Vt) := by
    rw [← hP, ← hMP, ← hQS]
    simp only [Matrix.mul_assoc]
  have hQSs : Q * S = Vt.transpose * S := by
    have h := congrArg (fun X => X * Vt.transpose) hQSV
    simp only [Matrix.mul_assoc] at h
    rw [show Vt * Vt.transpose = 1 from hVV] at h
    simpa [Matrix.mul_one] using h
  have hdetS : IsUnit S.det := by
    rw [hS, Matrix.det_diagonal]
    exact isUnit_iff_ne_zero.2 (ne_of_gt (Finset.prod_pos (fun i _ => hd i)))
  have hSinv : S * S⁻¹ = 1 := Matrix.mul_nonsing_inv S hdetS
  have hQVt : Q = Vt.transpose := by
    have h := congrArg (fun X => X * S⁻¹) hQSs
    simp only [Matrix.mul_assoc, hSinv, Matrix.mul_one] at h
    exact h
  have hU2 : U = R * Vt.transpose := by
    have h : R * Q = U := by
      rw [hQ, ← Matrix.mul_assoc, hRR, Matrix.one_mul]
    rw [← h, hQVt]
  have hUVt : U * Vt = R := by
    rw [hU2, Matrix.mul_assoc, hV, Matrix.mul_one]
  unfold kabschFromSVD
  rw [hUVt]
  rw [if_neg (by rw [hdetR]; norm_num)]

end Sus
namespace Sus

/-- A rank-one outer product `b bᵀ` is positive semidefinite. -/
theorem vecMulVec_posSemidef (b : Fin 3 → ℝ) : (Matrix.vecMulVec b b).PosSemidef := by
  constructor
  · ext i j
    simp [Matrix.conjTranspose_apply, Matrix.vecMulVec_apply, mul_comm]
  · intro x
    have hquad : Matrix.dotProduct (star x) ((Matrix.vecMulVec b b).mulVec x) =
        (Matrix.dotProduct b x) * (Matrix.dotProduct b x) := by
      simp only [star_trivial, Matrix.dotProduct, Matrix.mulVec, Matrix.vecMulVec_apply]
      simp_rw [mul_assoc, ← Finset.mul_sum]
      simp_rw [← mul_assoc]
      rw [← Finset.sum_mul]
      congr 1
      exact Finset.sum_congr rfl (fun i _ => mul_comm _ _)
    rw [hquad]
    exact mul_self_nonneg _

/-- Nonnegative scalings preserve positive semidefiniteness. -/
theorem posSemidef_smul_nonneg {A : Matrix (Fin 3) (Fin 3) ℝ} (hA : A.PosSemidef)
    (c : ℝ) (hc : 0 ≤ c) : (c • A).PosSemidef := by
  constructor
  · show (c • A).conjTranspose = c • A
    rw [Matrix.conjTranspose_smul, star_trivial, hA.1]
  · intro x
    rw [Matrix.smul_mulVec_assoc, Matrix.dotProduct_smul, smul_eq_mul]
    exact mul_nonneg hc (hA.2 x)

end Sus
namespace Sus

/-- Rotating the left points factors the rotation out of the weighted
cross-covariance: `H(w, R·B, B) = R * H(w, B, B)`. -/
theorem crossCovariance_map_rot (R : Matrix (Fin 3) (Fin 3) ℝ) :
    ∀ (w : List ℝ) (B : List (Fin 3 → ℝ)),
      crossCovariance w (B.map R.mulVec) B = R * crossCovariance w B B := by
  intro w
  induction w with
  | nil => intro B; simp [crossCovariance]
  | cons wk ws ih =>
    intro B
    cases B with
    | nil => simp [crossCovariance]
    | cons b bs =>
      simp only [crossCovariance, List.map_cons, List.zip_cons_cons, List.sum_cons]
      rw [Matrix.mul_add]
      congr 1
      · rw [Matrix.mul_smul]
        congr 1
        ext i j
        simp only [Matrix.vecMulVec_apply, Matrix.mul_apply, Matrix.mulVec,
          Matrix.dotProduct]
        rw [Finset.sum_mul]
        exact Finset.sum_congr rfl (fun k _ => by ring)
      · have h := ih bs
        simpa [crossCovariance] using h

/-- With clamped (nonnegative) weights the self cross-covariance
`H(max(w,0), B, B)` is positive semidefinite. -/
theorem crossCovariance_clamp_psd :
    ∀ (w : List ℝ) (B : List (Fin 3 → ℝ)),
      (crossCovariance (clampW w) B B).PosSemidef := by
  intro w
  induction w with
  | nil =>
    intro B
    simp only [clampW, List.map_nil, crossCovariance, List.zip_nil_left, List.sum_nil]
    exact Matrix.PosSemidef.zero
  | cons wk ws ih =>
    intro B
    cases B with
    | nil =>
      simp only [clampW, List.map_cons, crossCovariance, List.zip_nil_right,
        List.map_nil, List.sum_nil]
      exact Matrix.PosSemidef.zero
    | cons b bs =>
      simp only [clampW, List.map_cons, crossCovariance, List.zip_cons_cons,
        List.sum_cons]
      refine Matrix.PosSemidef.add ?_ ?_
      · exact posSemidef_smul_nonneg (vecMulVec_posSemidef b) _ (le_max_right wk 0)
      · have h := ih bs
        simpa [crossCovariance, clampW] using h

/-- Recovery at the level of the solver's own pipeline: for pairs
`A = R·B` with clamped weights, any SVD of the cross-covariance with
positive singular values is corrected back to `R` by `kabschFromSVD`. -/
theorem kabsch_recovery_from_pairs
    (w : List ℝ) (B : List (Fin 3 → ℝ)) (R U Vt : Matrix (Fin 3) (Fin 3) ℝ)
    (d : Fin 3 → ℝ)
    (hR : R.transpose * R = 1) (hdetR : R.det = 1) (hd : ∀ i, 0 < d i)
    (hsvd : crossCovariance (clampW w) (B.map R.mulVec) B = U * Matrix.diagonal d * Vt)
    (hU : U.transpose * U = 1) (hV : Vt.transpose * Vt = 1) :
    kabschFromSVD U Vt = R := by
  apply kabsch_exact_recovery R (crossCovariance (clampW w) B B) U Vt d hR hdetR
    (crossCovariance_clamp_psd w B) hd ?_ hU hV
  rw [← hsvd, crossCovariance_map_rot]

end Sus
namespace Sus

/-- The singular-value diagonal of the concrete instance, as an
explicit matrix. -/
theorem diagonal_d0 : Matrix.diagonal d0 =
    Matrix.of ![![2, 0, 0], ![0, 1, 0], ![0, 0, 0]] := by
  ext i j
  fin_cases i <;> fin_cases j <;>
    simp [Matrix.diagonal_apply, d0, Matrix.vecHead, Matrix.vecTail, Fin.ext_iff]

/-- The adversarial factors form an exact SVD of the cross-covariance
of the identity-rotated concrete pairs `(B0, B0)` with weights 1. -/
theorem crossCovariance_B0_svd :
    crossCovariance (clampW [1, 1, 1]) (B0.map (Matrix.mulVec 1)) B0 =
    U0 * Matrix.diagonal d0 * Vt0 := by
  have hmap : B0.map (Matrix.mulVec (1 : Matrix (Fin 3) (Fin 3) ℚ)) = B0 := by
    have h1 : Matrix.mulVec (1 : Matrix (Fin 3) (Fin 3) ℚ) = id :=
      funext fun v => Matrix.one_mulVec v
    rw [h1, List.map_id]
  rw [hmap]
  show crossCovariance (clampW [1, 1, 1]) B0 B0 = _
  have hcl : clampW ([1, 1, 1] : List ℚ) = [1, 1, 1] := by
    simp [clampW]
  rw [hcl, diagonal_d0]
  simp only [crossCovariance, B0, List.zip_cons_cons, List.zip_nil_left,
    List.map_cons, List.map_nil, List.sum_cons, List.sum_nil]
  ext i j
  fin_cases i <;> fin_cases j <;>
    norm_num [Matrix.vecMulVec_apply, Matrix.mul_apply, Fin.sum_univ_three,
      U0, Vt0, Matrix.vecHead, Matrix.vecTail]
/-- `U0` is orthogonal. -/
theorem U0_orth : U0.transpose * U0 = 1 := by
  ext i j
  rw [Matrix.mul_apply, Fin.sum_univ_three]
  fin_cases i <;> fin_cases j <;>
    norm_num [Matrix.mul_apply, Fin.sum_univ_three, U0, Matrix.transpose_apply,
      Matrix.one_apply, Matrix.vecHead, Matrix.vecTail, Fin.ext_iff]

/-- The unconstrained SVD product for the concrete instance is a
reflection: its determinant is −1. -/
theorem detU0Vt0_neg : (U0 * Vt0).det = -1 := by
  have h : U0 * Vt0 = Matrix.of ![![1, 0, 0], ![0, 1, 0], ![0, 0, -1]] := by
    ext i j
    rw [Matrix.mul_apply, Fin.sum_univ_three]
    fin_cases i <;> fin_cases j <;>
      norm_num [Matrix.mul_apply, Fin.sum_univ_three, U0, Vt0,
        Matrix.vecHead, Matrix.vecTail, Fin.ext_iff]
  rw [h, Matrix.det_fin_three]
  norm_num

/-- On the adversarial factors the reflection fix recovers the true
rotation (the identity) exactly. -/
theorem kabsch_B0_recovers_id : kabschFromSVD U0 Vt0 = 1 := by
  have hdet : (U0 * Vt0).det = -1 := by
    have h : U0 * Vt0 = Matrix.of ![![1, 0, 0], ![0, 1, 0], ![0, 0, -1]] := by
      ext i j
      rw [Matrix.mul_apply, Fin.sum_univ_three]
      fin_cases i <;> fin_cases j <;>
        norm_num [Matrix.mul_apply, Fin.sum_univ_three, U0, Vt0,
          Matrix.vecHead, Matrix.vecTail, Fin.ext_iff]
    rw [h, Matrix.det_fin_three]
    norm_num
  unfold kabschFromSVD
  rw [if_pos (by rw [hdet]; norm_num)]
  ext i j
  rw [Matrix.mul_apply, Fin.sum_univ_three]
  fin_cases i <;> fin_cases j <;>
    norm_num [Matrix.mul_apply, Fin.sum_univ_three, negLastCol, U0, Vt0,
      Matrix.updateColumn_apply, Matrix.one_apply, Fin.ext_iff,
      Matrix.vecHead, Matrix.vecTail]

end Sus

namespace Sus

/-- `Vt0` is orthogonal. -/
theorem Vt0_orth : Vt0.transpose * Vt0 = 1 := by
  ext i j
  rw [Matrix.mul_apply, Fin.sum_univ_three]
  fin_cases i <;> fin_cases j <;>
    norm_num [Vt0, Matrix.transpose_apply, Matrix.one_apply,
      Matrix.vecHead, Matrix.vecTail, Fin.ext_iff]

/-- Every vector of `B0` is a unit vector (squared norm 1, stated
over ℚ to avoid square roots). -/
theorem B0_units : ∀ v ∈ B0, (∑ i, v i ^ 2) = 1 := by
  intro v hv
  rw [Fin.sum_univ_three]
  rcases List.mem_cons.1 hv with rfl | hv
  · norm_num
  rcases List.mem_cons.1 hv with rfl | hv
  · norm_num
  rcases List.mem_cons.1 hv with rfl | hv
  · norm_num
  · exact absurd hv (List.not_mem_nil v)

/-- `B0` is non-colinear: its three vectors are not all scalar
multiples of one common direction. -/
theorem B0_noncolinear :
    ∀ u : Fin 3 → ℚ, ¬ ∃ c : List ℚ, c.length = 3 ∧
      B0 = c.map (fun ck => ck • u) := by
  intro u h
  obtain ⟨c, hlen, hmap⟩ := h
  match c, hlen with
  | [c1, c2, c3], _ =>
    simp only [List.map_cons, B0, List.cons.injEq, List.map_nil, and_true] at hmap
    obtain ⟨h1, h2, h3⟩ := hmap
    have e10 := congrFun h1 0
    have e11 := congrFun h1 1
    have e21 := congrFun h2 1
    simp only [Pi.smul_apply, smul_eq_mul, Matrix.cons_val_zero, Matrix.cons_val_one,
      Matrix.head_cons] at e10 e11 e21
    have hc1 : c1 ≠ 0 := by
      intro h0
      rw [h0, zero_mul] at e10
      exact one_ne_zero e10
    have hu1 : u 1 = 0 := by
      rcases mul_eq_zero.1 e11.symm with h0 | h0
      · exact absurd h0 hc1
      · exact h0
    rw [hu1, mul_zero] at e21
    exact one_ne_zero e21

/-- C1: the weighted Kabsch/Wahba solver always returns a proper
rotation, and recovers the true rotation on exact synthetic input.
(i) for any orthogonal SVD factors the returned matrix has
determinant +1 (the reflection case is corrected by negating U's last
column); (ii) for any weights, points `B`, proper rotation `R_true`
with `A = R_true·B` exactly, and any SVD of the clamped-weight
cross-covariance with positive singular values, the solver returns
`R_true` itself; (iii) a concrete instance with 3 non-colinear unit
vectors and an adversarial rank-2 SVD whose unconstrained product has
determinant −1: the fix recovers the identity exactly, so every entry
of `R − R_true` has absolute value 0 < 1e-6. -/
theorem c1_kabsch_proper_rotation_and_recovery :
    (∀ (U Vt : Matrix (Fin 3) (Fin 3) ℝ),
        U.transpose * U = 1 → Vt.transpose * Vt = 1 →
        (kabschFromSVD U Vt).det = 1) ∧
    (∀ (w : List ℝ) (B : List (Fin 3 → ℝ)) (Rt U Vt : Matrix (Fin 3) (Fin 3) ℝ)
        (d : Fin 3 → ℝ),
        Rt.transpose * Rt = 1 → Rt.det = 1 → (∀ i, 0 < d i) →
        crossCovariance (clampW w) (B.map Rt.mulVec) B =
          U * Matrix.diagonal d * Vt →
        U.transpose * U = 1 → Vt.transpose * Vt = 1 →
        kabschFromSVD U Vt = Rt) ∧
    (B0.length = 3 ∧
      (∀ v ∈ B0, (∑ i, v i ^ 2) = 1) ∧
      (∀ u : Fin 3 → ℚ, ¬ ∃ c : List ℚ, c.length = 3 ∧
        B0 = c.map (fun ck => ck • u)) ∧
      crossCovariance (clampW [1, 1, 1]) (B0.map (Matrix.mulVec 1)) B0 =
        U0 * Matrix.diagonal d0 * Vt0 ∧
      U0.transpose * U0 = 1 ∧ Vt0.transpose * Vt0 = 1 ∧
      (U0 * Vt0).det = -1 ∧
      kabschFromSVD U0 Vt0 = 1 ∧
      (∀ i j, |kabschFromSVD U0 Vt0 i j - (1 : Matrix (Fin 3) (Fin 3) ℚ) i j| <
        1 / 1000000)) := by
  refine ⟨fun U Vt hU hV => kabsch_det_one U Vt hU hV,
    fun w B Rt U Vt d hR hdet hd hsvd hU hV =>
      kabsch_recovery_from_pairs w B Rt U Vt d hR hdet hd hsvd hU hV,
    rfl, B0_units, B0_noncolinear, crossCovariance_B0_svd, U0_orth, Vt0_orth,
    detU0Vt0_neg, kabsch_B0_recovers_id, ?_⟩
  intro i j
  rw [kabsch_B0_recovers_id, sub_self, abs_zero]
  norm_num

end Sus
